import Mathlib

/-!
Verification of the DAV request/response core of the n8n-nodes-dav
repository: path normalization, request composition, multi-status XML
extraction, error translation, and the per-item batch loops of the
WebDAV / CalDAV / CardDAV nodes.

Strings are modelled as `List Char` at the core (Lean `Char` is a Unicode
scalar value, matching well-formed JavaScript strings), with `String`
wrappers mirroring the source function names.
-/

namespace Dav

/-- ASCII lowering, as performed by a case-insensitive regex test on the
ASCII letters that appear in the patterns of the source. -/
def lowerChar (c : Char) : Char :=
  if 65 ≤ c.toNat ∧ c.toNat ≤ 90 then Char.ofNat (c.toNat + 32) else c

/-- Boolean test that `p` begins with `pat`. -/
def isPre : List Char → List Char → Bool
  | [], _ => true
  | _ :: _, [] => false
  | a :: p, b :: s => a == b && isPre p s

/-- The literal char pattern of `http://`. -/
def httpPat : List Char := ['h', 't', 't', 'p', ':', '/', '/']

/-- The literal char pattern of `https://`. -/
def httpsPat : List Char := ['h', 't', 't', 'p', 's', ':', '/', '/']

/-- Model of the test `/^https?:\/\//i.test(p)` used throughout the source. -/
def isUrlPfx (p : List Char) : Bool :=
  isPre httpPat (p.map lowerChar) || isPre httpsPat (p.map lowerChar)

/-- Unreserved characters of `encodeURIComponent`: ASCII alphanumerics and
`- _ . ! ~ * ' ( )` (codes 45, 95, 46, 33, 126, 42, 39, 40, 41). -/
def isUnreserved (c : Char) : Bool :=
  let n := c.toNat
  (48 ≤ n && n ≤ 57) || (65 ≤ n && n ≤ 90) || (97 ≤ n && n ≤ 122) ||
  n == 45 || n == 95 || n == 46 || n == 33 || n == 126 ||
  n == 42 || n == 39 || n == 40 || n == 41

/-- Upper-case hex digit for a value below 16. -/
def toHexChar (n : Nat) : Char :=
  if n < 10 then Char.ofNat (48 + n) else Char.ofNat (55 + n)

/-- Hex digit value of a character, accepting both cases; `none` when the
character is not a hex digit. -/
def fromHexDigit (c : Char) : Option Nat :=
  let n := c.toNat
  if 48 ≤ n ∧ n ≤ 57 then some (n - 48)
  else if 65 ≤ n ∧ n ≤ 70 then some (n - 55)
  else if 97 ≤ n ∧ n ≤ 102 then some (n - 87)
  else none

/-- UTF-8 bytes of a Unicode scalar value. -/
def utf8Bytes (n : Nat) : List Nat :=
  if n < 0x80 then [n]
  else if n < 0x800 then [0xC0 + n / 64, 0x80 + n % 64]
  else if n < 0x10000 then
    [0xE0 + n / 4096, 0x80 + n / 64 % 64, 0x80 + n % 64]
  else
    [0xF0 + n / 262144, 0x80 + n / 4096 % 64, 0x80 + n / 64 % 64, 0x80 + n % 64]

/-- Percent-escape of one byte, upper-case hex, as `encodeURIComponent`
produces. -/
def pctByte (b : Nat) : List Char := ['%', toHexChar (b / 16), toHexChar (b % 16)]

/-- Percent-escapes of a byte list. -/
def pctBytes (bs : List Nat) : List Char := (bs.map pctByte).flatten

/-- Encoding of one character under `encodeURIComponent`. -/
def encChar (c : Char) : List Char :=
  if isUnreserved c then [c] else pctBytes (utf8Bytes c.toNat)

/-- Model of JavaScript `encodeURIComponent` on a well-formed string. -/
def encodeURIComponentM (s : List Char) : List Char := (s.map encChar).flatten

/-- Token stream of `decodeURIComponent`: a raw (unescaped) character or a
byte produced by a `%XX` escape. -/
inductive Tok where
  | raw (c : Char)
  | byte (b : Nat)
deriving DecidableEq

/-- First phase of `decodeURIComponent`: each `%XX` becomes a byte token,
anything else passes through raw; fails when `%` is not followed by two hex
digits. -/
def pctTokens : List Char → Option (List Tok)
  | [] => some []
  | c :: r =>
    if c = '%' then
      match r with
      | c1 :: c2 :: r2 =>
        match fromHexDigit c1, fromHexDigit c2 with
        | some h1, some h2 => (pctTokens r2).map (fun ts => Tok.byte (16 * h1 + h2) :: ts)
        | _, _ => none
      | _ => none
    else (pctTokens r).map (fun ts => Tok.raw c :: ts)

/-- Whether a byte is a UTF-8 continuation byte. -/
def isCont (b : Nat) : Bool := 0x80 ≤ b && b < 0xC0

/-- One step of the second phase of `decodeURIComponent`: pop one decoded
character from the token stream. Strict UTF-8 decoding of byte tokens:
continuation bytes must themselves come from escapes; overlong forms,
surrogates and out-of-range values are rejected, as the ECMAScript
`Decode` operation does. -/
def detokStep : List Tok → Option (Char × List Tok)
  | [] => none
  | Tok.raw c :: r => some (c, r)
  | Tok.byte b :: r =>
    if b < 0x80 then some (Char.ofNat b, r)
    else if b < 0xC0 then none
    else if b < 0xE0 then
      match r with
      | Tok.byte b2 :: r2 =>
        if isCont b2 then
          let v := (b - 0xC0) * 64 + (b2 - 0x80)
          if 0x80 ≤ v then some (Char.ofNat v, r2) else none
        else none
      | _ => none
    else if b < 0xF0 then
      match r with
      | Tok.byte b2 :: Tok.byte b3 :: r3 =>
        if isCont b2 && isCont b3 then
          let v := (b - 0xE0) * 4096 + (b2 - 0x80) * 64 + (b3 - 0x80)
          if 0x800 ≤ v ∧ ¬(0xD800 ≤ v ∧ v < 0xE000) then some (Char.ofNat v, r3) else none
        else none
      | _ => none
    else if b < 0xF8 then
      match r with
      | Tok.byte b2 :: Tok.byte b3 :: Tok.byte b4 :: r4 =>
        if isCont b2 && isCont b3 && isCont b4 then
          let v := (b - 0xF0) * 262144 + (b2 - 0x80) * 4096 + (b3 - 0x80) * 64 + (b4 - 0x80)
          if 0x10000 ≤ v ∧ v < 0x110000 then some (Char.ofNat v, r4) else none
        else none
      | _ => none
    else none

/-- Fuel-indexed iteration of `detokStep`; each step consumes at least one
token, so fuel equal to the stream length always suffices. -/
def utf8DetokF : Nat → List Tok → Option (List Char)
  | _, [] => some []
  | 0, _ :: _ => none
  | fuel + 1, t :: tr =>
    match detokStep (t :: tr) with
    | none => none
    | some (c, rest) => (utf8DetokF fuel rest).map (fun l => c :: l)

/-- Second phase of `decodeURIComponent`: strict UTF-8 decoding of the
token stream. -/
def utf8Detok (ts : List Tok) : Option (List Char) := utf8DetokF ts.length ts

/-- Model of JavaScript `decodeURIComponent`; `none` models the thrown
`URIError`. -/
def decodeURIComponentM (s : List Char) : Option (List Char) :=
  (pctTokens s).bind utf8Detok

/-- Split a char list at every `/`, preserving empty segments, as
JavaScript `String.prototype.split` does. -/
def splitSlash : List Char → List (List Char)
  | [] => [[]]
  | c :: r =>
    if c = '/' then [] :: splitSlash r
    else
      match splitSlash r with
      | [] => [[c]]
      | s :: ss => (c :: s) :: ss

/-- Join segments with `/`, as `Array.prototype.join('/')` does. -/
def joinSlash : List (List Char) → List Char
  | [] => []
  | [s] => s
  | s :: ss => s ++ '/' :: joinSlash ss

/-- Per-segment encoding step of the source normalizer: empty segments stay
empty, otherwise `encodeURIComponent(decodeURIComponent(seg))`, falling back
to `encodeURIComponent(seg)` when decoding throws. -/
def encSeg (seg : List Char) : List Char :=
  if seg = [] then []
  else
    match decodeURIComponentM seg with
    | some d => encodeURIComponentM d
    | none => encodeURIComponentM seg

/-- Strip a single leading slash, as `p.startsWith('/') ? p.slice(1) : p`. -/
def dropSlash : List Char → List Char
  | '/' :: r => r
  | p => p

/-- Body of the source normalizer past its early returns: strip one leading
slash, split on `/`, re-encode every segment, rejoin, re-prefix `/`. -/
def normalizeCore (p : List Char) : List Char :=
  '/' :: joinSlash (((splitSlash (dropSlash p)).map encSeg))

/-- The CalDAV variant of `normalizePath` (absolute URLs pass through). -/
def normalizeCal (p : List Char) : List Char :=
  if p = [] ∨ p = ['/'] then ['/']
  else if isUrlPfx p then p
  else normalizeCore p

/-- The WebDAV/CardDAV variant of `normalizePath` (absolute URLs are
rejected with an error). -/
def normalizeWebL (p : List Char) : Except Unit (List Char) :=
  if p = [] ∨ p = ['/'] then Except.ok ['/']
  else if isUrlPfx p then Except.error ()
  else Except.ok (normalizeCore p)

end Dav

namespace CalDav

/-- The `normalizePath` helper of `CalDav.execute`, on `String`. -/
def normalizePath (p : String) : String := ⟨Dav.normalizeCal p.data⟩

end CalDav

namespace WebDav

/-- The `normalizePath` helper of `WebDav.execute`, on `String`; `Except`
models the thrown `NodeOperationError` for absolute URLs. -/
def normalizePath (p : String) : Except Unit String :=
  (Dav.normalizeWebL p.data).map fun l => ⟨l⟩

end WebDav

instance {ε α : Type} [DecidableEq ε] [DecidableEq α] : DecidableEq (Except ε α) := fun x y =>
  match x, y with
  | .ok a, .ok b =>
    if h : a = b then isTrue (by rw [h]) else isFalse (fun hh => by cases hh; exact h rfl)
  | .error a, .error b =>
    if h : a = b then isTrue (by rw [h]) else isFalse (fun hh => by cases hh; exact h rfl)
  | .ok _, .error _ => isFalse (fun hh => by cases hh)
  | .error _, .ok _ => isFalse (fun hh => by cases hh)

namespace Dav

/-- Split a char list at the first occurrence of `pat`: returns the part
before the occurrence and the part after it, or `none` when `pat` does not
occur. -/
def findFirst (pat : List Char) : List Char → Option (List Char × List Char)
  | [] => if isPre pat [] then some ([], []) else none
  | c :: s =>
    if isPre pat (c :: s) then some ([], (c :: s).drop pat.length)
    else (findFirst pat s).map (fun r => (c :: r.1, r.2))

/-- Line-terminator characters that `.` does not match in a JavaScript
regex without the `s` flag. -/
def isLineTerm (c : Char) : Bool :=
  c.toNat == 10 || c.toNat == 13 || c.toNat == 0x2028 || c.toNat == 0x2029

/-- Whether a char list is free of line terminators. -/
def noNL (l : List Char) : Bool := l.all (fun c => !isLineTerm c)

/-- First match of a JavaScript regex of the shape
`openPat[^>]*>(.*?)closePat` against `s`, returning the captured group;
`dotAll` selects the `s` flag. Start positions are tried left to right; at
a given start the group runs from the first `>` after `openPat` to the
first `closePat` after that. -/
def scanNG (openPat closePat : List Char) (dotAll : Bool) : List Char → Option (List Char)
  | [] => none
  | c :: r =>
    if isPre openPat (c :: r) then
      match findFirst ['>'] ((c :: r).drop openPat.length) with
      | none => scanNG openPat closePat dotAll r
      | some (_, afterGt) =>
        match findFirst closePat afterGt with
        | none => scanNG openPat closePat dotAll r
        | some (content, _) =>
          if dotAll || noNL content then some content
          else scanNG openPat closePat dotAll r
    else scanNG openPat closePat dotAll r

/-- One step of the global exec loop over
`/<D:response[^>]*>(.*?)<\/D:response>/gs`: the next block body and the
rest of the document after its closing tag. -/
def respScan : List Char → Option (List Char × List Char)
  | [] => none
  | c :: r =>
    if isPre ("<D:response".data) (c :: r) then
      match findFirst ['>'] ((c :: r).drop ("<D:response".data).length) with
      | none => respScan r
      | some (_, afterGt) =>
        match findFirst ("</D:response>".data) afterGt with
        | none => respScan r
        | some (content, rest) => some (content, rest)
    else respScan r

/-- Fuel-indexed iteration of `respScan`, as the `while` loop over
`responseRegex.exec` iterates with advancing `lastIndex`. -/
def responseBlocksF : Nat → List Char → List (List Char)
  | 0, _ => []
  | fuel + 1, s =>
    match respScan s with
    | none => []
    | some (b, rest) => b :: responseBlocksF fuel rest

/-- All `<D:response>` block bodies of a document, in document order. The
fuel `s.length + 1` always suffices since every block consumes at least one
character. -/
def responseBlocks (s : List Char) : List (List Char) := responseBlocksF (s.length + 1) s

/-- JavaScript `parseInt(str)` in radix 10 (the only use site feeds it a
`getcontentlength` text): skip whitespace, optional sign, leading decimal
digits; `none` models `NaN`. (Automatic radix detection for `0x` prefixes
is not modelled; no theorem depends on it.) -/
def parseIntM (s : List Char) : Option Int :=
  let isWs := fun (c : Char) => c.toNat == 32 || (9 ≤ c.toNat && c.toNat ≤ 13)
  let isDigit := fun (c : Char) => 48 ≤ c.toNat && c.toNat ≤ 57
  let digitsVal := fun (l : List Char) =>
    match l.takeWhile isDigit with
    | [] => (none : Option Nat)
    | ds => some (ds.foldl (fun (a : Nat) (c : Char) => 10 * a + (c.toNat - 48)) 0)
  match s.dropWhile isWs with
  | '-' :: r => (digitsVal r).map (fun n => -(n : Int))
  | '+' :: r => (digitsVal r).map (fun n => (n : Int))
  | r => (digitsVal r).map (fun n => (n : Int))

/-- Substring test: whether `needle` occurs in `hay`. -/
def hasSub (needle : List Char) : List Char → Bool
  | [] => isPre needle []
  | c :: t => isPre needle (c :: t) || hasSub needle t

/-- ASCII lowering of a char list. -/
def lowerL (l : List Char) : List Char := l.map lowerChar

/-- Case-insensitive substring test, as `/needle/i.test(hay)` for an
ASCII-letter needle. -/
def containsCI (hay needle : String) : Bool := hasSub (lowerL needle.data) (lowerL hay.data)

/-- Record produced by `parseCalendarsResponse` (CalDav) for one response
block: decoded href and optional display name and description. -/
structure CalRec where
  href : List Char
  displayName : Option (List Char)
  description : Option (List Char)
deriving DecidableEq

/-- Record produced by `parseEventsResponse` for one response block. -/
structure EvtRec where
  href : List Char
  etag : Option (List Char)
  calendarData : List Char
deriving DecidableEq

/-- Record produced by `parsePropfindResponse` (WebDav) for one response
block. -/
structure PropRec where
  href : List Char
  contentType : Option (List Char)
  lastModified : Option (List Char)
  contentLength : Option Int
  isCollection : Bool
deriving DecidableEq

/-- Per-block loop body of `parseCalendarsResponse`: blocks without an
href are dropped, `decodeURIComponent` of the href may throw (the
`Except.error`), absent optional matches become `none`. -/
def calRecsOf : List (List Char) → Except Unit (List CalRec)
  | [] => .ok []
  | b :: bs =>
    match scanNG ("<D:href".data) ("</D:href>".data) false b with
    | none => calRecsOf bs
    | some hraw =>
      match decodeURIComponentM hraw with
      | none => .error ()
      | some h =>
        (calRecsOf bs).map (fun rs =>
          { href := h
            displayName := scanNG ("<D:displayname".data) ("</D:displayname>".data) false b
            description :=
              scanNG ("<C:calendar-description".data) ("</C:calendar-description>".data) false b } :: rs)

/-- The `parseCalendarsResponse` helper of `CalDav.execute` case
`getCalendars`. -/
def parseCalendarsResponseM (xml : List Char) : Except Unit (List CalRec) :=
  calRecsOf (responseBlocks xml)

/-- Per-block loop body of `parseEventsResponse`: a record is pushed only
when both the href and the `calendar-data` match succeed. -/
def evtRecsOf : List (List Char) → Except Unit (List EvtRec)
  | [] => .ok []
  | b :: bs =>
    match scanNG ("<D:href".data) ("</D:href>".data) false b,
          scanNG ("<C:calendar-data".data) ("</C:calendar-data>".data) true b with
    | some hraw, some cdata =>
      match decodeURIComponentM hraw with
      | none => .error ()
      | some h =>
        (evtRecsOf bs).map (fun rs =>
          { href := h
            etag := scanNG ("<D:getetag".data) ("</D:getetag>".data) false b
            calendarData := cdata } :: rs)
    | _, _ => evtRecsOf bs

/-- The `parseEventsResponse` helper of `CalDav.execute` case `getEvents`. -/
def parseEventsResponseM (xml : List Char) : Except Unit (List EvtRec) :=
  evtRecsOf (responseBlocks xml)

/-- Per-block loop body of `parsePropfindResponse`. -/
def propRecsOf : List (List Char) → Except Unit (List PropRec)
  | [] => .ok []
  | b :: bs =>
    match scanNG ("<D:href".data) ("</D:href>".data) false b with
    | none => propRecsOf bs
    | some hraw =>
      match decodeURIComponentM hraw with
      | none => .error ()
      | some h =>
        (propRecsOf bs).map (fun rs =>
          { href := h
            contentType := scanNG ("<D:getcontenttype".data) ("</D:getcontenttype>".data) false b
            lastModified := scanNG ("<D:getlastmodified".data) ("</D:getlastmodified>".data) false b
            contentLength :=
              match scanNG ("<D:getcontentlength".data) ("</D:getcontentlength>".data) false b with
              | some l => parseIntM l
              | none => none
            isCollection :=
              match scanNG ("<D:resourcetype".data) ("</D:resourcetype>".data) false b with
              | some l => hasSub ("collection".data) l
              | none => false } :: rs)

/-- The `parsePropfindResponse` helper of `WebDav.execute` case `propfind`. -/
def parsePropfindResponseM (xml : List Char) : Except Unit (List PropRec) :=
  propRecsOf (responseBlocks xml)

/-- Body of a rendered response block: one `<D:href>` element with the
given text, or nothing at all. -/
def renderInner : Option (List Char) → List Char
  | some h => "<D:href>".data ++ h ++ "</D:href>".data
  | none => []

/-- A multi-status response block holding either one `<D:href>` element
(with the given text) or no href at all. -/
def renderBlock (b : Option (List Char)) : List Char :=
  "<D:response>".data ++ renderInner b ++ "</D:response>".data

/-- A multi-status document made of the given response blocks. -/
def renderDoc (bs : List (Option (List Char))) : List Char := (bs.map renderBlock).flatten

/-- A value is clean when it contains no `<` and no line terminator, so a
pattern scan never starts or aborts inside it. -/
def cleanVal (h : List Char) : Bool := h.all (fun c => !(c == '<') && !isLineTerm c)

/-- JavaScript-style whitespace test used by `trim`. -/
def wsChar (c : Char) : Bool := c.toNat == 32 || (9 ≤ c.toNat && c.toNat ≤ 13)

/-- Model of `String.prototype.trim`. -/
def trimWs (l : List Char) : List Char :=
  ((l.dropWhile wsChar).reverse.dropWhile wsChar).reverse

/-- The run-aborting message thrown by all three nodes for a bad base URL. -/
def invalidBaseUrlMsg : String :=
  "Invalid Base URL in credentials. Include protocol (http:// or https://), e.g. https://your-server/remote.php/dav"

/-- The shared early validation of `credentials.baseUrl`: read once, trim,
require non-empty and matching `^https?://` (case-insensitive); embeds the
identical blocks of WebDav, CalDav and CardDav `execute`. -/
def validateBaseUrl (cred : Option String) : Except String String :=
  match cred with
  | none => .error invalidBaseUrlMsg
  | some raw =>
    let t := trimWs raw.data
    if t = [] ∨ ¬ isUrlPfx t then .error invalidBaseUrlMsg else .ok ⟨t⟩

/-- Trace events of a node run: the one-time credential validation and the
processing of the item at a given index. -/
inductive Ev where
  | validate
  | item (i : Nat)
deriving DecidableEq

/-- Run-level failure: the aborting credential error, or the re-raised
per-item error decorated with its index. -/
inductive ShellErr (ε : Type) where
  | cred (m : String)
  | item (i : Nat) (e : ε)
deriving DecidableEq

/-- The WebDav batch loop over the input items: on success the transformed
item is pushed onto `returnItems`; on failure with continue-on-fail an
error record is pushed instead; otherwise the run aborts with the item
index. Also returns the indices of the items that were processed. -/
def runItems {α ε : Type} (cof : Bool) (step : Nat → α → Except ε α) (errRec : Nat → ε → α) :
    Nat → List α → List Nat × Except (Nat × ε) (List α)
  | _, [] => ([], .ok [])
  | i, a :: rest =>
    match step i a with
    | .ok r =>
      let (idxs, res) := runItems cof step errRec (i + 1) rest
      (i :: idxs, res.map (fun l => r :: l))
    | .error e =>
      if cof then
        let (idxs, res) := runItems cof step errRec (i + 1) rest
        (i :: idxs, res.map (fun l => errRec i e :: l))
      else ([i], .error (i, e))

/-- The CalDav/CardDav batch loop: `for (itemIndex < items.length)` over an
array that the continue-on-fail branch itself appends error records to
(`items.push(...)`), so appended records are iterated in turn; successful
items are mutated in place. Fuel bounds the iteration; `none` in the
result marks fuel exhaustion. -/
def davPushLoop {α ε : Type} (cof : Bool) (step : Nat → α → Except ε α) (errRec : Nat → ε → α) :
    Nat → List α → Nat → List Nat × Option (Except (Nat × ε) (List α))
  | 0, _, _ => ([], none)
  | fuel + 1, arr, i =>
    if h : i < arr.length then
      match step i (arr.get ⟨i, h⟩) with
      | .ok r =>
        let (idxs, res) := davPushLoop cof step errRec fuel (arr.set i r) (i + 1)
        (i :: idxs, res)
      | .error e =>
        if cof then
          let (idxs, res) := davPushLoop cof step errRec fuel (arr ++ [errRec i e]) (i + 1)
          (i :: idxs, res)
        else ([i], some (.error (i, e)))
    else ([], some (.ok arr))

end Dav

namespace WebDav

/-- Shell of `WebDav.execute`: validate the credential once, then run the
batch loop; aborts with zero items processed when validation fails. -/
def executeShell {α ε : Type} (cred : Option String) (cof : Bool)
    (step : Nat → α → Except ε α) (errRec : Nat → ε → α) (items : List α) :
    List Dav.Ev × Except (Dav.ShellErr ε) (List α) :=
  match Dav.validateBaseUrl cred with
  | .error m => ([Dav.Ev.validate], .error (.cred m))
  | .ok _ =>
    let (idxs, res) := Dav.runItems cof step errRec 0 items
    (Dav.Ev.validate :: idxs.map Dav.Ev.item,
     match res with
     | .ok l => .ok l
     | .error (i, e) => .error (.item i e))

end WebDav

namespace CalDav

/-- Shell of `CalDav.execute`: validate the credential once, then run the
push-style batch loop over the growing item array. -/
def executeShell {α ε : Type} (fuel : Nat) (cred : Option String) (cof : Bool)
    (step : Nat → α → Except ε α) (errRec : Nat → ε → α) (items : List α) :
    List Dav.Ev × Option (Except (Dav.ShellErr ε) (List α)) :=
  match Dav.validateBaseUrl cred with
  | .error m => ([Dav.Ev.validate], some (.error (.cred m)))
  | .ok _ =>
    let (idxs, res) := Dav.davPushLoop cof step errRec fuel items 0
    (Dav.Ev.validate :: idxs.map Dav.Ev.item,
     res.map (fun r =>
       match r with
       | .ok l => .ok l
       | .error (i, e) => .error (.item i e)))

end CalDav

namespace CardDav

/-- Shell of `CardDav.execute`: its validation, loop and catch blocks are
identical to those of `CalDav.execute` (the continue-on-fail branch pushes
onto the iterated `items` array). -/
def executeShell {α ε : Type} : Nat → Option String → Bool →
    (Nat → α → Except ε α) → (Nat → ε → α) → List α →
    List Dav.Ev × Option (Except (Dav.ShellErr ε) (List α)) :=
  CalDav.executeShell

end CardDav

namespace WebDav

/-- The WebDav operations that report a `success` output field. -/
inductive WdOp where
  | put
  | mkcol
  | del
  | move
  | copy
deriving DecidableEq

/-- The success/status json fields each case of `WebDav.execute` pushes. -/
structure WdJson where
  success : Bool
  statusCode : Nat
deriving DecidableEq

/-- The per-case result assembly of `WebDav.execute`: `mkcol` reports
`status === 201`, the other mutating operations report
`status >= 200 && status < 300`. -/
def caseResultJson : WdOp → Nat → WdJson
  | .put, s => ⟨decide (200 ≤ s) && decide (s < 300), s⟩
  | .mkcol, s => ⟨s == 201, s⟩
  | .del, s => ⟨decide (200 ≤ s) && decide (s < 300), s⟩
  | .move, s => ⟨decide (200 ≤ s) && decide (s < 300), s⟩
  | .copy, s => ⟨decide (200 ≤ s) && decide (s < 300), s⟩

/-- Shape of the caught error object examined by `toFriendlyError`. -/
structure ErrShape where
  message : String
  code : Option String
  statusCode : Option Nat
  respStatus : Option Nat
  respStatusText : Option String
  causeStatus : Option Nat
  causeStatusText : Option String
deriving DecidableEq

/-- The `toFriendlyError` helper of `WebDav.execute`, for an error whose
`message` property is a (non-empty) string: the `Invalid URL` message test
comes first, then the transport codes, then any discovered HTTP status,
then the original message. -/
def toFriendlyError (operation resource u : String) (e : ErrShape) : String :=
  let base := "WebDAV " ++ operation ++ " on " ++ resource ++ ": \"" ++ u ++ "\""
  let msg := e.message
  if Dav.containsCI msg "Invalid URL" then
    "Invalid URL for " ++ base ++ ". Ensure Base URL has protocol (https://) and path starts with \"/\". Spaces/special chars are auto-encoded."
  else if e.code == some "ENOTFOUND" then
    "Host not found for " ++ base ++ ". Check the server hostname in credentials."
  else if e.code == some "ECONNREFUSED" then
    "Connection refused for " ++ base ++ ". Server unreachable or port blocked."
  else if e.code == some "ETIMEDOUT" then
    "Connection timed out for " ++ base ++ ". Server slow or network issues."
  else
    match e.statusCode <|> e.respStatus <|> e.causeStatus with
    | some st =>
      if st ≠ 0 then
        "HTTP " ++ toString st ++
          (match e.respStatusText <|> e.causeStatusText with
           | some t => if t ≠ "" then " " ++ t else ""
           | none => "") ++ " for " ++ base ++ "."
      else msg ++ " (" ++ base ++ ")"
    | none => msg ++ " (" ++ base ++ ")"

end WebDav

namespace Dav

/-- Parsed absolute `http(s)` URL: scheme, lowered host, optional port and
the path-and-after tail, modelling the `URL` constructor far enough for
origin comparison and serialization. -/
structure DavUrl where
  scheme : List Char
  host : List Char
  port : Option Nat
  tail : List Char
deriving DecidableEq

/-- Model of `new URL(s)` for `http(s)` inputs; `none` models the thrown
`TypeError`. -/
def parseUrlM (s : List Char) : Option DavUrl :=
  let low := s.map lowerChar
  let parseRest := fun (scheme : List Char) (rest : List Char) =>
    let authority := rest.takeWhile (fun c => !(c == '/'))
    let tail := rest.dropWhile (fun c => !(c == '/'))
    let hostPart := authority.takeWhile (fun c => !(c == ':'))
    let portPart := authority.dropWhile (fun c => !(c == ':'))
    if hostPart = [] then none
    else
      match portPart with
      | [] => some { scheme := scheme, host := hostPart.map lowerChar, port := none, tail := tail }
      | _ :: ds =>
        if ds = [] then
          some { scheme := scheme, host := hostPart.map lowerChar, port := none, tail := tail }
        else if ds.all (fun c => 48 ≤ c.toNat && c.toNat ≤ 57) then
          some { scheme := scheme, host := hostPart.map lowerChar
                 port := some (ds.foldl (fun (a : Nat) (c : Char) => 10 * a + (c.toNat - 48)) 0), tail := tail }
        else none
  if isPre httpsPat low then parseRest ("https".data) (s.drop 8)
  else if isPre httpPat low then parseRest ("http".data) (s.drop 7)
  else none

/-- Whether a port is the default for the scheme. -/
def isDefaultPort (scheme : List Char) (p : Nat) : Bool :=
  (scheme == "https".data && p == 443) || (scheme == "http".data && p == 80)

/-- The `origin` of a parsed URL. -/
def origin (u : DavUrl) : List Char :=
  u.scheme ++ "://".data ++ u.host ++
    (match u.port with
     | none => []
     | some p => if isDefaultPort u.scheme p then [] else ':' :: (toString p).data)

/-- Serialization of a parsed URL, as `URL.prototype.toString` (an empty
path serializes as `/`). -/
def urlToString (u : DavUrl) : List Char :=
  origin u ++ (if u.tail = [] then ['/'] else u.tail)

end Dav

namespace WebDav

/-- A composed MOVE/COPY request: target URL and the `Destination` and
`Overwrite` headers. -/
structure MoveReq where
  method : String
  url : String
  destination : String
  overwrite : String
deriving DecidableEq

/-- The MOVE/COPY case body of `WebDav.execute`: an absolute destination is
origin-checked against the base URL before any request is composed; a
relative destination becomes `baseRoot + normalizePath(destination)`; the
request URL is `normalizePath(path)` re-normalized by `doRequest`. -/
def composeMoveCopy (method : String) (baseRoot path destination : String) (overwrite : Bool) :
    Except String MoveReq :=
  let destStep : Except String String :=
    if Dav.isUrlPfx destination.data then
      match Dav.parseUrlM destination.data, Dav.parseUrlM baseRoot.data with
      | some d, some b =>
        if Dav.origin d ≠ Dav.origin b then
          .error "Destination must be on the same server as the Base URL"
        else .ok ⟨Dav.urlToString d⟩
      | _, _ => .error "Invalid URL"
    else
      match Dav.normalizeWebL destination.data with
      | .error _ => .error "Absolute URLs are not allowed in path fields. Use a server-relative path starting with \"/\"."
      | .ok nd => .ok ⟨baseRoot.data ++ nd⟩
  match destStep with
  | .error m => .error m
  | .ok destinationHeader =>
    match Dav.normalizeWebL path.data with
    | .error _ => .error "Absolute URLs are not allowed in path fields. Use a server-relative path starting with \"/\"."
    | .ok np =>
      match Dav.normalizeWebL np with
      | .error _ => .error "Absolute URLs are not allowed in path fields. Use a server-relative path starting with \"/\"."
      | .ok np2 =>
        .ok { method := method
              url := ⟨baseRoot.data ++ np2⟩
              destination := destinationHeader
              overwrite := if overwrite then "T" else "F" }

/-- The `move` case of `WebDav.execute`. -/
def composeMove (baseRoot path destination : String) (overwrite : Bool) : Except String MoveReq :=
  composeMoveCopy "MOVE" baseRoot path destination overwrite

/-- The `copy` case of `WebDav.execute` (its body is the `move` body with
method `COPY`). -/
def composeCopy (baseRoot path destination : String) (overwrite : Bool) : Except String MoveReq :=
  composeMoveCopy "COPY" baseRoot path destination overwrite

end WebDav

namespace CalDav

/-- A composed PUT request of the `createEvent` case. -/
structure PutReq where
  method : String
  url : String
  contentType : String
  body : String
deriving DecidableEq

/-- The `createEvent` case of `CalDav.execute`: ensure a leading slash on
the calendar path, normalize `calendarPath + "/" + eventId + ".ics"` at the
call site, and let `doRequest` prefix `baseRoot` after normalizing the
(already normalized) path again. -/
def composeCreateEvent (baseRoot calendarPath eventId eventData : String) : PutReq :=
  let cp := if Dav.isPre ['/'] calendarPath.data then calendarPath.data else '/' :: calendarPath.data
  let urlArg := Dav.normalizeCal (cp ++ '/' :: (eventId.data ++ ".ics".data))
  let url := if Dav.isUrlPfx urlArg then urlArg else baseRoot.data ++ Dav.normalizeCal urlArg
  { method := "PUT", url := ⟨url⟩, contentType := "text/calendar", body := eventData }

end CalDav

namespace Dav

/-- Space together with the RFC 3986 reserved characters
`: / ? # [ ] @ ! $ & ' ( ) * + , ; =`, by character code. -/
def isSpaceOrReserved (c : Char) : Bool :=
  c.toNat ∈ [32, 33, 35, 36, 38, 39, 40, 41, 42, 43, 44, 47, 58, 59, 61, 63, 64, 91, 93]

end Dav

/-! ## Foundational lemmas on characters, percent-encoding and the normalizer -/

namespace Dav

theorem detokStep_shrink {ts : List Tok} {c : Char} {rest : List Tok}
    (h : detokStep ts = some (c, rest)) : rest.length < ts.length := by
  match ts with
  | [] => simp [detokStep] at h
  | Tok.raw c0 :: r =>
    simp [detokStep] at h
    simp [← h.2]
  | Tok.byte b :: r =>
    unfold detokStep at h
    dsimp only at h
    repeat' split at h
    all_goals simp_all
    all_goals omega

end Dav

namespace Dav

theorem utf8DetokF_fuel (f1 : Nat) : ∀ (f2 : Nat) (ts : List Tok), ts.length ≤ f1 →
    ts.length ≤ f2 → utf8DetokF f1 ts = utf8DetokF f2 ts := by
  induction f1 with
  | zero =>
    intro f2 ts h1 _
    match ts with
    | [] => cases f2 <;> rfl
    | t :: tr => simp at h1
  | succ f1 ih =>
    intro f2 ts h1 h2
    match ts with
    | [] => cases f2 <;> rfl
    | t :: tr =>
      match f2 with
      | 0 => simp at h2
      | f2 + 1 =>
        show (match detokStep (t :: tr) with
              | none => none
              | some (c, rest) => (utf8DetokF f1 rest).map (fun l => c :: l)) =
             (match detokStep (t :: tr) with
              | none => none
              | some (c, rest) => (utf8DetokF f2 rest).map (fun l => c :: l))
        cases hs : detokStep (t :: tr) with
        | none => rfl
        | some p =>
          obtain ⟨c, rest⟩ := p
          have hlt := detokStep_shrink hs
          simp only [List.length_cons] at hlt h1 h2
          dsimp only
          rw [ih f2 rest (by omega) (by omega)]

theorem utf8Detok_step (t : Tok) (tr : List Tok) :
    utf8Detok (t :: tr) =
      match detokStep (t :: tr) with
      | none => none
      | some (c, rest) => (utf8Detok rest).map (fun l => c :: l) := by
  show utf8DetokF ((t :: tr).length) (t :: tr) = _
  rw [show (t :: tr).length = tr.length + 1 from rfl]
  show (match detokStep (t :: tr) with
        | none => none
        | some (c, rest) => (utf8DetokF tr.length rest).map (fun l => c :: l)) = _
  cases hs : detokStep (t :: tr) with
  | none => rfl
  | some p =>
    obtain ⟨c, rest⟩ := p
    have hlt := detokStep_shrink hs
    simp only [List.length_cons] at hlt
    dsimp only
    rw [utf8DetokF_fuel tr.length rest.length rest (by omega) (le_refl _)]
    rfl

end Dav

namespace Dav

theorem detok_raw (c : Char) (ts : List Tok) :
    utf8Detok (Tok.raw c :: ts) = (utf8Detok ts).map (fun l => c :: l) := by
  rw [utf8Detok_step]
  rfl

theorem detok_one (n : Nat) (h : n < 0x80) (ts : List Tok) :
    utf8Detok (Tok.byte n :: ts) = (utf8Detok ts).map (fun l => Char.ofNat n :: l) := by
  rw [utf8Detok_step]
  have hs : detokStep (Tok.byte n :: ts) = some (Char.ofNat n, ts) := by
    unfold detokStep
    dsimp only
    rw [if_pos h]
  rw [hs]

theorem detok_two (n : Nat) (h1 : 0x80 ≤ n) (h2 : n < 0x800) (ts : List Tok) :
    utf8Detok (Tok.byte (0xC0 + n / 64) :: Tok.byte (0x80 + n % 64) :: ts) =
      (utf8Detok ts).map (fun l => Char.ofNat n :: l) := by
  rw [utf8Detok_step]
  have hv : (0xC0 + n / 64 - 0xC0) * 64 + (0x80 + n % 64 - 0x80) = n := by omega
  have hs : detokStep (Tok.byte (0xC0 + n / 64) :: Tok.byte (0x80 + n % 64) :: ts) =
      some (Char.ofNat n, ts) := by
    unfold detokStep
    dsimp only
    rw [if_neg (by omega), if_neg (by omega), if_pos (by omega)]
    rw [if_pos (by simp [isCont]; omega)]
    simp only [hv]
    rw [if_pos (by omega)]
  rw [hs]

theorem detok_three (n : Nat) (h1 : 0x800 ≤ n) (h2 : n < 0x10000)
    (hs2 : ¬(0xD800 ≤ n ∧ n < 0xE000)) (ts : List Tok) :
    utf8Detok (Tok.byte (0xE0 + n / 4096) :: Tok.byte (0x80 + n / 64 % 64) ::
      Tok.byte (0x80 + n % 64) :: ts) = (utf8Detok ts).map (fun l => Char.ofNat n :: l) := by
  rw [utf8Detok_step]
  have hv : (0xE0 + n / 4096 - 0xE0) * 4096 + (0x80 + n / 64 % 64 - 0x80) * 64 +
      (0x80 + n % 64 - 0x80) = n := by omega
  have hs : detokStep (Tok.byte (0xE0 + n / 4096) :: Tok.byte (0x80 + n / 64 % 64) ::
      Tok.byte (0x80 + n % 64) :: ts) = some (Char.ofNat n, ts) := by
    unfold detokStep
    dsimp only
    rw [if_neg (by omega), if_neg (by omega), if_neg (by omega), if_pos (by omega)]
    rw [if_pos (by simp [isCont]; omega)]
    simp only [hv]
    rw [if_pos (by constructor <;> omega)]
  rw [hs]

theorem detok_four (n : Nat) (h1 : 0x10000 ≤ n) (h2 : n < 0x110000) (ts : List Tok) :
    utf8Detok (Tok.byte (0xF0 + n / 262144) :: Tok.byte (0x80 + n / 4096 % 64) ::
      Tok.byte (0x80 + n / 64 % 64) :: Tok.byte (0x80 + n % 64) :: ts) =
      (utf8Detok ts).map (fun l => Char.ofNat n :: l) := by
  rw [utf8Detok_step]
  have hv : (0xF0 + n / 262144 - 0xF0) * 262144 + (0x80 + n / 4096 % 64 - 0x80) * 4096 +
      (0x80 + n / 64 % 64 - 0x80) * 64 + (0x80 + n % 64 - 0x80) = n := by omega
  have hs : detokStep (Tok.byte (0xF0 + n / 262144) :: Tok.byte (0x80 + n / 4096 % 64) ::
      Tok.byte (0x80 + n / 64 % 64) :: Tok.byte (0x80 + n % 64) :: ts) =
      some (Char.ofNat n, ts) := by
    unfold detokStep
    dsimp only
    rw [if_neg (by omega), if_neg (by omega), if_neg (by omega), if_neg (by omega),
      if_pos (by omega)]
    rw [if_pos (by simp [isCont]; omega)]
    simp only [hv]
    rw [if_pos (by constructor <;> omega)]
  rw [hs]

end Dav

namespace Dav

theorem charValid (c : Char) : c.toNat < 0xD800 ∨ (0xDFFF < c.toNat ∧ c.toNat < 0x110000) := by
  have := c.valid
  simp [UInt32.isValidChar, Nat.isValidChar] at this
  exact this

theorem fromHex_toHex (n : Nat) (h : n < 16) : fromHexDigit (toHexChar n) = some n := by
  interval_cases n <;> decide

theorem pctTokens_raw (c : Char) (hc : c ≠ '%') (t : List Char) :
    pctTokens (c :: t) = (pctTokens t).map (fun ts => Tok.raw c :: ts) := by
  conv_lhs => rw [pctTokens.eq_def]
  dsimp only
  rw [if_neg hc]

theorem pctTokens_pct (b : Nat) (hb : b < 256) (t : List Char) :
    pctTokens (pctByte b ++ t) = (pctTokens t).map (fun ts => Tok.byte b :: ts) := by
  show pctTokens ('%' :: toHexChar (b / 16) :: toHexChar (b % 16) :: t) = _
  conv_lhs => rw [pctTokens.eq_def]
  dsimp only
  rw [if_pos rfl]
  rw [fromHex_toHex _ (by omega), fromHex_toHex _ (by omega)]
  have hbb : 16 * (b / 16) + b % 16 = b := by omega
  simp [hbb]

theorem pctTokens_bytes (bs : List Nat) (hbs : ∀ b ∈ bs, b < 256) (t : List Char) :
    pctTokens (pctBytes bs ++ t) = (pctTokens t).map (fun ts => bs.map Tok.byte ++ ts) := by
  induction bs with
  | nil => simp [pctBytes]
  | cons b bs ih =>
    have hb : b < 256 := hbs b (List.mem_cons_self b bs)
    have hbs2 : ∀ x ∈ bs, x < 256 := fun x hx => hbs x (List.mem_cons_of_mem b hx)
    show pctTokens ((pctByte b ++ pctBytes bs) ++ t) = _
    rw [List.append_assoc, pctTokens_pct b hb, ih hbs2]
    cases pctTokens t <;> simp

theorem utf8Bytes_lt_256 (c : Char) : ∀ b ∈ utf8Bytes c.toNat, b < 256 := by
  have hv := charValid c
  intro b hb
  unfold utf8Bytes at hb
  split_ifs at hb <;> simp at hb <;> omega

theorem detok_encBytes (c : Char) (ts : List Tok) :
    utf8Detok ((utf8Bytes c.toNat).map Tok.byte ++ ts) = (utf8Detok ts).map (fun l => c :: l) := by
  have hv := charValid c
  by_cases h1 : c.toNat < 0x80
  · rw [show utf8Bytes c.toNat = [c.toNat] from by simp [utf8Bytes, h1]]
    simp only [List.map_cons, List.map_nil, List.cons_append, List.nil_append]
    rw [detok_one _ h1, Char.ofNat_toNat]
  · by_cases h2 : c.toNat < 0x800
    · rw [show utf8Bytes c.toNat = [0xC0 + c.toNat / 64, 0x80 + c.toNat % 64] from by
        simp [utf8Bytes, h1, h2]]
      simp only [List.map_cons, List.map_nil, List.cons_append, List.nil_append]
      rw [detok_two _ (by omega) h2, Char.ofNat_toNat]
    · by_cases h3 : c.toNat < 0x10000
      · rw [show utf8Bytes c.toNat =
            [0xE0 + c.toNat / 4096, 0x80 + c.toNat / 64 % 64, 0x80 + c.toNat % 64] from by
          simp [utf8Bytes, h1, h2, h3]]
        simp only [List.map_cons, List.map_nil, List.cons_append, List.nil_append]
        rw [detok_three _ (by omega) h3 (by omega), Char.ofNat_toNat]
      · rw [show utf8Bytes c.toNat = [0xF0 + c.toNat / 262144, 0x80 + c.toNat / 4096 % 64,
            0x80 + c.toNat / 64 % 64, 0x80 + c.toNat % 64] from by
          simp [utf8Bytes, h1, h2, h3]]
        simp only [List.map_cons, List.map_nil, List.cons_append, List.nil_append]
        rw [detok_four _ (by omega) (by omega), Char.ofNat_toNat]

theorem unreserved_ne_pct (c : Char) (h : isUnreserved c = true) : c ≠ '%' := by
  intro he
  subst he
  exact absurd h (by decide)

theorem encodeM_cons (c : Char) (s : List Char) :
    encodeURIComponentM (c :: s) = encChar c ++ encodeURIComponentM s := by
  simp [encodeURIComponentM]

theorem decode_encode (s : List Char) : decodeURIComponentM (encodeURIComponentM s) = some s := by
  induction s with
  | nil => rfl
  | cons c s ih =>
    unfold decodeURIComponentM at ih ⊢
    cases hpt : pctTokens (encodeURIComponentM s) with
    | none => rw [hpt] at ih; simp at ih
    | some ts =>
      rw [hpt] at ih
      simp only [Option.some_bind] at ih
      rw [encodeM_cons]
      by_cases hu : isUnreserved c
      · rw [show encChar c = [c] from by simp [encChar, hu], List.cons_append, List.nil_append,
          pctTokens_raw c (unreserved_ne_pct c hu), hpt]
        simp [detok_raw, ih]
      · rw [show encChar c = pctBytes (utf8Bytes c.toNat) from by simp [encChar, hu],
          pctTokens_bytes _ (utf8Bytes_lt_256 c), hpt]
        simp [detok_encBytes, ih]

end Dav

namespace Dav

theorem toHexChar_ne_slash (m : Nat) (h : m < 16) : toHexChar m ≠ '/' := by
  interval_cases m <;> decide

theorem mem_encChar_ne_slash (c : Char) : ∀ x ∈ encChar c, x ≠ '/' := by
  intro x hx
  unfold encChar at hx
  by_cases hu : isUnreserved c
  · rw [if_pos hu] at hx
    simp at hx
    subst hx
    intro he
    subst he
    exact absurd hu (by decide)
  · rw [if_neg hu] at hx
    unfold pctBytes at hx
    rw [List.mem_flatten] at hx
    obtain ⟨l, hl, hxl⟩ := hx
    rw [List.mem_map] at hl
    obtain ⟨b, hb, rfl⟩ := hl
    have hb256 : b < 256 := utf8Bytes_lt_256 c b hb
    unfold pctByte at hxl
    simp at hxl
    rcases hxl with rfl | rfl | rfl
    · decide
    · exact toHexChar_ne_slash _ (by omega)
    · exact toHexChar_ne_slash _ (by omega)

theorem mem_encodeM_ne_slash (s : List Char) : ∀ x ∈ encodeURIComponentM s, x ≠ '/' := by
  intro x hx
  unfold encodeURIComponentM at hx
  rw [List.mem_flatten] at hx
  obtain ⟨l, hl, hxl⟩ := hx
  rw [List.mem_map] at hl
  obtain ⟨c, _, rfl⟩ := hl
  exact mem_encChar_ne_slash c x hxl

theorem encSeg_no_slash (seg : List Char) : ∀ x ∈ encSeg seg, x ≠ '/' := by
  intro x hx
  unfold encSeg at hx
  by_cases h0 : seg = []
  · rw [if_pos h0] at hx
    simp at hx
  · rw [if_neg h0] at hx
    cases hd : decodeURIComponentM seg with
    | some d => rw [hd] at hx; exact mem_encodeM_ne_slash d x hx
    | none => rw [hd] at hx; exact mem_encodeM_ne_slash seg x hx

theorem encSeg_idem (seg : List Char) : encSeg (encSeg seg) = encSeg seg := by
  by_cases h0 : seg = []
  · subst h0
    simp [encSeg]
  · have hstep : encSeg seg = [] ∨ ∃ x, encSeg seg = encodeURIComponentM x := by
      unfold encSeg
      rw [if_neg h0]
      cases decodeURIComponentM seg with
      | some d => exact Or.inr ⟨d, rfl⟩
      | none => exact Or.inr ⟨seg, rfl⟩
    rcases hstep with he | ⟨x, he⟩
    · rw [he]
      simp [encSeg]
    · rw [he]
      by_cases hx0 : encodeURIComponentM x = []
      · rw [hx0]
        simp [encSeg]
      · unfold encSeg
        rw [if_neg hx0, decode_encode x]

theorem splitSlash_ne_nil (l : List Char) : splitSlash l ≠ [] := by
  induction l with
  | nil => simp [splitSlash]
  | cons c r ih =>
    unfold splitSlash
    by_cases hc : c = '/'
    · rw [if_pos hc]
      simp
    · rw [if_neg hc]
      cases hs : splitSlash r with
      | nil => exact absurd hs ih
      | cons a as => simp

theorem splitSlash_no_slash (s : List Char) (h : ∀ x ∈ s, x ≠ '/') : splitSlash s = [s] := by
  induction s with
  | nil => rfl
  | cons c r ih =>
    have hc : c ≠ '/' := h c (List.mem_cons_self c r)
    unfold splitSlash
    rw [if_neg hc, ih (fun x hx => h x (List.mem_cons_of_mem c hx))]

theorem splitSlash_append (s t : List Char) (h : ∀ x ∈ s, x ≠ '/') :
    splitSlash (s ++ '/' :: t) = s :: splitSlash t := by
  induction s with
  | nil =>
    show splitSlash ('/' :: t) = [] :: splitSlash t
    conv_lhs => rw [splitSlash.eq_def]
    dsimp only
    rw [if_pos rfl]
  | cons c r ih =>
    have hc : c ≠ '/' := h c (List.mem_cons_self c r)
    show splitSlash (c :: (r ++ '/' :: t)) = _
    conv_lhs => rw [splitSlash.eq_def]
    dsimp only
    rw [if_neg hc, ih (fun x hx => h x (List.mem_cons_of_mem c hx))]

theorem split_join (segs : List (List Char)) (hne : segs ≠ [])
    (hno : ∀ s ∈ segs, ∀ x ∈ s, x ≠ '/') : splitSlash (joinSlash segs) = segs := by
  induction segs with
  | nil => exact absurd rfl hne
  | cons s ss ih =>
    cases ss with
    | nil =>
      show splitSlash (joinSlash [s]) = [s]
      rw [show joinSlash [s] = s from rfl]
      exact splitSlash_no_slash s (hno s (List.mem_cons_self s []))
    | cons s2 ss2 =>
      show splitSlash (s ++ '/' :: joinSlash (s2 :: ss2)) = _
      rw [splitSlash_append s _ (hno s (List.mem_cons_self s _))]
      rw [ih (by simp) (fun a ha x hx => hno a (List.mem_cons_of_mem s ha) x hx)]

end Dav

namespace Dav

theorem lowerChar_slash : lowerChar '/' = '/' := by decide

theorem isUrlPfx_slash (r : List Char) : isUrlPfx ('/' :: r) = false := by
  unfold isUrlPfx
  rw [show ('/' :: r).map lowerChar = '/' :: r.map lowerChar from by simp [lowerChar_slash]]
  rw [show httpPat = 'h' :: ['t', 't', 'p', ':', '/', '/'] from rfl]
  rw [show httpsPat = 'h' :: ['t', 't', 'p', 's', ':', '/', '/'] from rfl]
  unfold isPre
  simp

theorem normalizeCore_cons (p : List Char) :
    normalizeCore p = '/' :: joinSlash ((splitSlash (dropSlash p)).map encSeg) := rfl

theorem map_encSeg_idem (segs : List (List Char)) :
    (segs.map encSeg).map encSeg = segs.map encSeg := by
  rw [List.map_map]
  exact List.map_congr_left (fun a _ => encSeg_idem a)

theorem normalizeCore_of_core (p : List Char) :
    normalizeCore (normalizeCore p) = normalizeCore p := by
  have hsegs : splitSlash (dropSlash p) ≠ [] := splitSlash_ne_nil _
  rw [normalizeCore_cons p]
  set segsE := (splitSlash (dropSlash p)).map encSeg with hE
  have hner : segsE ≠ [] := by
    intro h
    exact hsegs (List.map_eq_nil_iff.mp (hE ▸ h))
  have hnos : ∀ s ∈ segsE, ∀ x ∈ s, x ≠ '/' := by
    intro s hs
    rw [hE, List.mem_map] at hs
    obtain ⟨a, _, rfl⟩ := hs
    exact encSeg_no_slash a
  show normalizeCore ('/' :: joinSlash segsE) = _
  rw [normalizeCore_cons]
  rw [show dropSlash ('/' :: joinSlash segsE) = joinSlash segsE from rfl]
  rw [split_join segsE hner hnos]
  rw [hE, map_encSeg_idem]

theorem normWeb_idem (p : List Char) :
    (normalizeWebL p).bind normalizeWebL = normalizeWebL p := by
  unfold normalizeWebL
  by_cases h0 : p = [] ∨ p = ['/']
  · rw [if_pos h0]
    show normalizeWebL ['/'] = _
    unfold normalizeWebL
    rw [if_pos (Or.inr rfl)]
  · rw [if_neg h0]
    by_cases hu : isUrlPfx p
    · rw [if_pos hu]
      rfl
    · rw [if_neg hu]
      show normalizeWebL (normalizeCore p) = _
      have hcons : normalizeCore p = '/' :: joinSlash ((splitSlash (dropSlash p)).map encSeg) := rfl
      by_cases hq : normalizeCore p = ['/']
      · unfold normalizeWebL
        rw [if_pos (Or.inr hq), hq]
      · unfold normalizeWebL
        rw [if_neg (by
          intro hc
          rcases hc with hc | hc
          · rw [hcons] at hc; cases hc
          · exact hq hc)]
        rw [if_neg (by rw [hcons, isUrlPfx_slash]; simp)]
        rw [normalizeCore_of_core]

end Dav

/-- C6: for every path containing a space or a reserved character and not
matching `^https?://`, the WebDav `normalizePath` is idempotent:
normalizing its own output returns the output unchanged. -/
theorem c6_normalize_idempotent (p : String)
    (hres : p.data.any Dav.isSpaceOrReserved = true)
    (hurl : Dav.isUrlPfx p.data = false) :
    (WebDav.normalizePath p).bind WebDav.normalizePath = WebDav.normalizePath p := by
  unfold WebDav.normalizePath
  cases hn : Dav.normalizeWebL p.data with
  | error e => rfl
  | ok q =>
    have h2 : Dav.normalizeWebL q = .ok q := by
      have hh := Dav.normWeb_idem p.data
      rw [hn] at hh
      simpa [Except.bind] using hh
    show (Dav.normalizeWebL (String.data ⟨q⟩)).map (fun l => (⟨l⟩ : String)) = _
    rw [show String.data ⟨q⟩ = q from rfl, h2]

/-- Witness for C6 at the concrete path `a b`. -/
theorem c6_normalize_idempotent_witness :
    ("a b".data.any Dav.isSpaceOrReserved = true) ∧ (Dav.isUrlPfx "a b".data = false) ∧
      (WebDav.normalizePath "a b").bind WebDav.normalizePath = WebDav.normalizePath "a b" :=
  ⟨by decide, by decide, c6_normalize_idempotent "a b" (by decide) (by decide)⟩

/-- C9: the four concrete normalizations claimed in the spec. -/
theorem c9_normalize_concrete_values :
    WebDav.normalizePath "" = .ok "/" ∧ WebDav.normalizePath "/" = .ok "/" ∧
    WebDav.normalizePath "calendars/user/My Calendar" = .ok "/calendars/user/My%20Calendar" ∧
    WebDav.normalizePath "Files/test&file.txt" = .ok "/Files/test%26file.txt" := by
  refine ⟨?_, ?_, ?_, ?_⟩ <;> decide

/-- C2 counterexample: with calendar path `/cal/` and event id `evt-1` the
composed URL keeps the double slash (`{baseRoot}/cal//evt-1.ics`), so it is
not `{baseRoot}/cal/evt-1.ics`. -/
theorem c2_counterexample :
    (CalDav.composeCreateEvent "https://srv.example" "/cal/" "evt-1" "BEGIN:VCALENDAR").url ≠
      "https://srv.example/cal/evt-1.ics" ∧
    (CalDav.composeCreateEvent "https://srv.example" "/cal/" "evt-1" "BEGIN:VCALENDAR").url =
      "https://srv.example/cal//evt-1.ics" := by
  refine ⟨?_, ?_⟩ <;> decide

/-- C2 amended: the request is a PUT with Content-Type text/calendar whose
URL is `baseRoot ++ "/cal//evt-1.ics"` (the empty segment produced by the
trailing slash of the calendar path is preserved), and the concatenation is
normalized twice, at the call site and in `doRequest`, the second
application leaving the first result unchanged. -/
theorem c2_amended (baseRoot eventData : String) :
    (CalDav.composeCreateEvent baseRoot "/cal/" "evt-1" eventData).method = "PUT" ∧
    (CalDav.composeCreateEvent baseRoot "/cal/" "evt-1" eventData).contentType = "text/calendar" ∧
    (CalDav.composeCreateEvent baseRoot "/cal/" "evt-1" eventData).url =
      ⟨baseRoot.data ++ "/cal//evt-1.ics".data⟩ ∧
    CalDav.normalizePath (CalDav.normalizePath "/cal//evt-1.ics") =
      CalDav.normalizePath "/cal//evt-1.ics" := by
  refine ⟨rfl, rfl, ?_, by decide⟩
  unfold CalDav.composeCreateEvent
  dsimp only
  rw [show Dav.normalizeCal ((if Dav.isPre ['/'] "/cal/".data then "/cal/".data
        else '/' :: "/cal/".data) ++ '/' :: ("evt-1".data ++ ".ics".data)) =
      "/cal//evt-1.ics".data from by decide]
  rw [if_neg (by decide)]
  rw [show Dav.normalizeCal "/cal//evt-1.ics".data = "/cal//evt-1.ics".data from by decide]

namespace Dav

theorem isPre_self_append (p z : List Char) : isPre p (p ++ z) = true := by
  induction p with
  | nil => rfl
  | cons c p ih => simp [isPre, ih]

theorem isPre_iff (p s : List Char) : isPre p s = true ↔ ∃ t, s = p ++ t := by
  constructor
  · intro h
    induction p generalizing s with
    | nil => exact ⟨s, rfl⟩
    | cons c p ih =>
      cases s with
      | nil => simp [isPre] at h
      | cons d s2 =>
        simp [isPre] at h
        obtain ⟨t, ht⟩ := ih s2 h.2
        exact ⟨t, by rw [h.1, ht]; rfl⟩
  · rintro ⟨t, rfl⟩
    exact isPre_self_append p t

theorem not_isPre_of_take_ne (pat t : List Char)
    (h : pat.take t.length ≠ t.take pat.length) (z : List Char) :
    isPre pat (t ++ z) = false := by
  by_contra hc
  rw [Bool.not_eq_false, isPre_iff] at hc
  obtain ⟨w, hw⟩ := hc
  apply h
  have h1 : (t ++ z).take (min pat.length t.length) = t.take (min pat.length t.length) := by
    rw [List.take_append_eq_append_take]
    have hz : min pat.length t.length - t.length = 0 := by omega
    simp [hz, List.take_take]
  have h2 : (t ++ z).take (min pat.length t.length) = pat.take (min pat.length t.length) := by
    rw [hw, List.take_append_eq_append_take]
    have hz : min pat.length t.length - pat.length = 0 := by omega
    simp [hz, List.take_take]
  have h3 : pat.take (min pat.length t.length) = t.take (min pat.length t.length) := by
    rw [← h2, h1]
  rcases le_total pat.length t.length with hle | hle
  · rw [min_eq_left hle] at h3
    calc pat.take t.length = pat := List.take_of_length_le hle
    _ = pat.take pat.length := (List.take_length pat).symm
    _ = t.take pat.length := h3
  · rw [min_eq_right hle] at h3
    calc pat.take t.length = t.take t.length := h3
    _ = t := List.take_length t
    _ = t.take pat.length := (List.take_of_length_le hle).symm

end Dav

namespace Dav

theorem suffix_split {x₂ : List Char} (a b : List Char) (h : x₂ <:+ a ++ b) :
    x₂ <:+ b ∨ ∃ a₂, a₂ <:+ a ∧ a₂ ≠ [] ∧ x₂ = a₂ ++ b := by
  induction a with
  | nil => exact Or.inl h
  | cons c a2 ih =>
    rw [List.cons_append, List.suffix_cons_iff] at h
    rcases h with rfl | h
    · exact Or.inr ⟨c :: a2, ⟨[], rfl⟩, by simp, by simp⟩
    · rcases ih h with hb | ⟨a₂, ⟨w, hw⟩, hne, rfl⟩
      · exact Or.inl hb
      · exact Or.inr ⟨a₂, ⟨c :: w, by rw [← hw]; rfl⟩, hne, rfl⟩

end Dav

namespace Dav

theorem isPre_false_of_head (pat : List Char) (hpat : pat.head? = some '<')
    (d : Char) (hd : d ≠ '<') (r : List Char) : isPre pat (d :: r) = false := by
  cases pat with
  | nil => simp at hpat
  | cons p0 ps =>
    simp at hpat
    subst hpat
    simp [isPre]
    intro he
    exact absurd he.symm hd

theorem suffix_concrete_not_isPre (pat lit : List Char)
    (hall : ∀ s₁ ∈ lit.tails, s₁ ≠ [] → pat.take s₁.length ≠ s₁.take pat.length) :
    ∀ s₁, s₁ <:+ lit → s₁ ≠ [] → ∀ z, isPre pat (s₁ ++ z) = false := by
  intro s₁ hs hne z
  exact not_isPre_of_take_ne pat s₁ (hall s₁ ((List.mem_tails s₁ lit).mpr hs) hne) z

theorem inner_skip (pat litA litB h z : List Char)
    (hpat : pat.head? = some '<')
    (hallA : ∀ s₁ ∈ litA.tails, s₁ ≠ [] → pat.take s₁.length ≠ s₁.take pat.length)
    (hallB : ∀ s₁ ∈ litB.tails, s₁ ≠ [] → pat.take s₁.length ≠ s₁.take pat.length)
    (hh : ∀ c ∈ h, c ≠ '<') :
    ∀ x₂, x₂ ≠ [] → x₂ <:+ (litA ++ h ++ litB) → isPre pat (x₂ ++ z) = false := by
  intro x₂ hne hs
  rw [List.append_assoc] at hs
  rcases suffix_split litA (h ++ litB) hs with hs2 | ⟨a₂, ha₂, hane, rfl⟩
  · rcases suffix_split h litB hs2 with hs3 | ⟨b₂, hb₂, hbne, rfl⟩
    · exact suffix_concrete_not_isPre pat litB hallB x₂ hs3 hne z
    · obtain ⟨d, b₂t, rfl⟩ := List.exists_cons_of_ne_nil hbne
      have hd : d ≠ '<' := hh d (hb₂.mem (List.mem_cons_self d b₂t))
      rw [List.cons_append, List.cons_append]
      exact isPre_false_of_head pat hpat d hd _
  · rw [List.append_assoc, List.append_assoc]
    exact suffix_concrete_not_isPre pat litA hallA a₂ ha₂ hane _

theorem findFirst_at_start (pat z : List Char) :
    findFirst pat (pat ++ z) = some ([], z) := by
  cases hp : pat ++ z with
  | nil =>
    have hpe : pat = [] := by
      cases pat
      · rfl
      · simp at hp
    subst hpe
    simp at hp
    subst hp
    rfl
  | cons c r =>
    rw [findFirst]
    rw [if_pos (hp ▸ isPre_self_append pat z), ← hp, List.drop_left]

theorem findFirst_skip (pat x y : List Char)
    (hskip : ∀ x₂, x₂ ≠ [] → x₂ <:+ x → isPre pat (x₂ ++ y) = false) :
    findFirst pat (x ++ y) = (findFirst pat y).map (fun r => (x ++ r.1, r.2)) := by
  induction x with
  | nil =>
    simp only [List.nil_append]
    cases findFirst pat y with
    | none => rfl
    | some r => rfl
  | cons c x2 ih =>
    rw [List.cons_append, findFirst]
    rw [if_neg (by
      have := hskip (c :: x2) (by simp) ⟨[], rfl⟩
      rw [List.cons_append] at this
      simp [this])]
    rw [ih (fun x₂ hne hs => hskip x₂ hne (hs.trans ⟨[c], rfl⟩))]
    cases findFirst pat y with
    | none => rfl
    | some r => rfl

theorem findFirst_none (pat s : List Char) (hpat : pat ≠ [])
    (h : ∀ x₂, x₂ ≠ [] → x₂ <:+ s → isPre pat x₂ = false) :
    findFirst pat s = none := by
  induction s with
  | nil =>
    obtain ⟨p0, pt, rfl⟩ := List.exists_cons_of_ne_nil hpat
    rfl
  | cons c r ih =>
    rw [findFirst]
    rw [if_neg (by simp [h (c :: r) (by simp) ⟨[], rfl⟩])]
    rw [ih (fun x₂ hne hs => h x₂ hne (hs.trans ⟨[c], rfl⟩))]
    rfl

end Dav

namespace Dav

theorem scanNG_hit (openPat closePat : List Char) (dotAll : Bool) (content rest : List Char)
    (hopen : openPat ≠ [])
    (hskip : ∀ x₂, x₂ ≠ [] → x₂ <:+ content → isPre closePat (x₂ ++ (closePat ++ rest)) = false)
    (hnl : (dotAll || noNL content) = true) :
    scanNG openPat closePat dotAll (openPat ++ '>' :: (content ++ closePat ++ rest)) =
      some content := by
  obtain ⟨c, p2, rfl⟩ := List.exists_cons_of_ne_nil hopen
  rw [List.cons_append, scanNG]
  rw [if_pos (by rw [← List.cons_append]; exact isPre_self_append _ _)]
  rw [← List.cons_append, List.drop_left]
  rw [show ('>' :: (content ++ closePat ++ rest)) = ['>'] ++ (content ++ closePat ++ rest) from
    rfl]
  rw [findFirst_at_start]
  try dsimp only
  try rw [List.append_assoc content closePat rest]
  rw [findFirst_skip closePat content (closePat ++ rest) hskip]
  rw [findFirst_at_start]
  simp [hnl]

theorem scanNG_none (openPat closePat : List Char) (dotAll : Bool) (s : List Char)
    (h : ∀ x₂, x₂ ≠ [] → x₂ <:+ s → isPre openPat x₂ = false) :
    scanNG openPat closePat dotAll s = none := by
  induction s with
  | nil => rfl
  | cons c r ih =>
    rw [scanNG]
    rw [if_neg (by simp [h (c :: r) (by simp) ⟨[], rfl⟩])]
    exact ih (fun x₂ hne hs => h x₂ hne (hs.trans ⟨[c], rfl⟩))

theorem respScan_hit (inner rest : List Char)
    (hskip : ∀ x₂, x₂ ≠ [] → x₂ <:+ inner →
      isPre ("</D:response>".data) (x₂ ++ ("</D:response>".data ++ rest)) = false) :
    respScan (("<D:response>".data) ++ inner ++ ("</D:response>".data) ++ rest) =
      some (inner, rest) := by
  rw [show ("<D:response>".data : List Char) = "<D:response".data ++ ['>'] from rfl]
  rw [List.append_assoc, List.append_assoc, List.append_assoc]
  rw [show (['>'] ++ (inner ++ ("</D:response>".data ++ rest)) : List Char) =
    '>' :: (inner ++ ("</D:response>".data ++ rest)) from rfl]
  rw [show ("<D:response".data : List Char) = '<' :: "D:response".data from rfl]
  rw [List.cons_append, respScan]
  rw [if_pos (by rw [← List.cons_append, ← show ("<D:response".data : List Char) =
    '<' :: "D:response".data from rfl]; exact isPre_self_append _ _)]
  rw [← List.cons_append, ← show ("<D:response".data : List Char) =
    '<' :: "D:response".data from rfl, List.drop_left]
  rw [show ('>' :: (inner ++ ("</D:response>".data ++ rest)) : List Char) =
    ['>'] ++ (inner ++ ("</D:response>".data ++ rest)) from rfl]
  rw [findFirst_at_start]
  try dsimp only
  rw [findFirst_skip _ inner _ hskip]
  rw [findFirst_at_start]
  simp

end Dav

namespace Dav

theorem cleanVal_ne_lt {h : List Char} (hc : cleanVal h = true) : ∀ c ∈ h, c ≠ '<' := by
  intro c hm
  unfold cleanVal at hc
  rw [List.all_eq_true] at hc
  have := hc c hm
  simp at this
  intro he
  subst he
  exact absurd this.1 (by decide)

theorem cleanVal_noNL {h : List Char} (hc : cleanVal h = true) : noNL h = true := by
  unfold cleanVal at hc
  unfold noNL
  rw [List.all_eq_true] at hc ⊢
  intro c hm
  have h2 := hc c hm
  simp at h2
  simp [isLineTerm] at h2 ⊢
  exact h2.2

theorem respScan_render (b : Option (List Char)) (rest : List Char)
    (hcl : ∀ h, b = some h → cleanVal h = true) :
    respScan (renderBlock b ++ rest) = some (renderInner b, rest) := by
  unfold renderBlock
  rw [List.append_assoc, List.append_assoc, ← List.append_assoc (renderInner b)]
  rw [← List.append_assoc ("<D:response>".data), ← List.append_assoc]
  apply respScan_hit
  cases b with
  | none =>
    intro x₂ hne hs
    rw [show renderInner none = [] from rfl] at hs
    obtain ⟨t, ht⟩ := hs
    rw [List.append_eq_nil] at ht
    exact absurd ht.2 hne
  | some h =>
    have hch := hcl h rfl
    intro x₂ hne hs
    rw [show renderInner (some h) = "<D:href>".data ++ h ++ "</D:href>".data from rfl] at hs
    exact inner_skip ("</D:response>".data) ("<D:href>".data) ("</D:href>".data) h _ rfl
      (by decide) (by decide) (cleanVal_ne_lt hch) x₂ hne hs

theorem responseBlocks_render (bs : List (Option (List Char)))
    (hcl : ∀ h, some h ∈ bs → cleanVal h = true) :
    responseBlocks (renderDoc bs) = bs.map renderInner := by
  unfold responseBlocks
  have h12 : ("<D:response>".data : List Char).length = 12 := rfl
  have h13 : ("</D:response>".data : List Char).length = 13 := rfl
  have main : ∀ fuel bs2, (∀ h, some h ∈ bs2 → cleanVal h = true) →
      (renderDoc bs2).length < fuel → responseBlocksF fuel (renderDoc bs2) = bs2.map renderInner := by
    intro fuel
    induction fuel with
    | zero =>
      intro bs2 _ hlen
      omega
    | succ f ih =>
      intro bs2 hcl2 hlen
      cases bs2 with
      | nil => rfl
      | cons b bs3 =>
        rw [show renderDoc (b :: bs3) = renderBlock b ++ renderDoc bs3 from by
          simp [renderDoc]]
        rw [responseBlocksF]
        rw [respScan_render b (renderDoc bs3) (fun h hh => hcl2 h (by simp [hh]))]
        dsimp only
        rw [ih bs3 (fun h hh => hcl2 h (List.mem_cons_of_mem _ hh)) (by
          rw [show renderDoc (b :: bs3) = renderBlock b ++ renderDoc bs3 from by
            simp [renderDoc]] at hlen
          rw [List.length_append] at hlen
          have hb : (renderBlock b).length ≥ 25 := by
            unfold renderBlock
            rw [List.length_append, List.length_append, h12, h13]
            omega
          omega)]
        rfl
  exact main ((renderDoc bs).length + 1) bs hcl (by omega)

theorem scan_href_inner (h : List Char) (hcl : cleanVal h = true) :
    scanNG ("<D:href".data) ("</D:href>".data) false (renderInner (some h)) = some h := by
  have hskip : ∀ x₂, x₂ ≠ [] → x₂ <:+ h →
      isPre ("</D:href>".data) (x₂ ++ ("</D:href>".data ++ [])) = false := by
    intro x₂ hne hs
    obtain ⟨d, x₂t, rfl⟩ := List.exists_cons_of_ne_nil hne
    exact isPre_false_of_head ("</D:href>".data) rfl d
      (cleanVal_ne_lt hcl d (hs.mem (List.mem_cons_self d x₂t))) _
  have := scanNG_hit ("<D:href".data) ("</D:href>".data) false h [] (by decide) hskip
    (by simp [cleanVal_noNL hcl])
  rw [show renderInner (some h) = "<D:href>".data ++ h ++ "</D:href>".data from rfl]
  rw [show ("<D:href>".data : List Char) = "<D:href".data ++ ['>'] from rfl]
  simpa using this

theorem scan_absent_inner (pat patC : List Char) (dotAll : Bool) (b : Option (List Char))
    (hpat : pat.head? = some '<')
    (hallA : ∀ s₁ ∈ ("<D:href>".data : List Char).tails, s₁ ≠ [] →
      pat.take s₁.length ≠ s₁.take pat.length)
    (hallB : ∀ s₁ ∈ ("</D:href>".data : List Char).tails, s₁ ≠ [] →
      pat.take s₁.length ≠ s₁.take pat.length)
    (hcl : ∀ h, b = some h → cleanVal h = true) :
    scanNG pat patC dotAll (renderInner b) = none := by
  cases b with
  | none => rfl
  | some h =>
    apply scanNG_none
    intro x₂ hne hs
    rw [show renderInner (some h) = "<D:href>".data ++ h ++ "</D:href>".data from rfl] at hs
    have := inner_skip pat ("<D:href>".data) ("</D:href>".data) h [] hpat hallA hallB
      (cleanVal_ne_lt (hcl h rfl)) x₂ hne hs
    simpa using this

end Dav

namespace Dav

theorem calRecsOf_render (bs : List (Option (List Char)))
    (hcl : ∀ h, some h ∈ bs → cleanVal h = true)
    (hdec : ∀ h, some h ∈ bs → (decodeURIComponentM h).isSome = true) :
    calRecsOf (bs.map renderInner) = .ok (bs.filterMap (fun b =>
      match b with
      | none => none
      | some h => (decodeURIComponentM h).map (fun d =>
          { href := d, displayName := none, description := none }))) := by
  induction bs with
  | nil => rfl
  | cons b bs3 ih =>
    have hcl3 : ∀ h, some h ∈ bs3 → cleanVal h = true :=
      fun h hh => hcl h (List.mem_cons_of_mem _ hh)
    have hdec3 : ∀ h, some h ∈ bs3 → (decodeURIComponentM h).isSome = true :=
      fun h hh => hdec h (List.mem_cons_of_mem _ hh)
    rw [List.map_cons, calRecsOf]
    cases b with
    | none =>
      rw [show scanNG ("<D:href".data) ("</D:href>".data) false (renderInner none) = none from
        rfl]
      rw [ih hcl3 hdec3, List.filterMap_cons]
    | some h =>
      have hch : cleanVal h = true := hcl h (List.mem_cons_self _ _)
      rw [scan_href_inner h hch]
      dsimp only
      obtain ⟨d, hd⟩ := Option.isSome_iff_exists.mp (hdec h (List.mem_cons_self _ _))
      rw [hd]
      dsimp only
      rw [scan_absent_inner ("<D:displayname".data) ("</D:displayname>".data) false (some h)
        rfl (by decide) (by decide) (fun h2 hh2 => by cases hh2; exact hch)]
      rw [scan_absent_inner ("<C:calendar-description".data) ("</C:calendar-description>".data)
        false (some h) rfl (by decide) (by decide) (fun h2 hh2 => by cases hh2; exact hch)]
      rw [ih hcl3 hdec3, List.filterMap_cons]
      dsimp only
      rw [hd]
      rfl

end Dav

namespace Dav

theorem propRecsOf_render (bs : List (Option (List Char)))
    (hcl : ∀ h, some h ∈ bs → cleanVal h = true)
    (hdec : ∀ h, some h ∈ bs → (decodeURIComponentM h).isSome = true) :
    propRecsOf (bs.map renderInner) = .ok (bs.filterMap (fun b =>
      match b with
      | none => none
      | some h => (decodeURIComponentM h).map (fun d =>
          { href := d, contentType := none, lastModified := none, contentLength := none
            isCollection := false }))) := by
  induction bs with
  | nil => rfl
  | cons b bs3 ih =>
    have hcl3 : ∀ h, some h ∈ bs3 → cleanVal h = true :=
      fun h hh => hcl h (List.mem_cons_of_mem _ hh)
    have hdec3 : ∀ h, some h ∈ bs3 → (decodeURIComponentM h).isSome = true :=
      fun h hh => hdec h (List.mem_cons_of_mem _ hh)
    rw [List.map_cons, propRecsOf]
    cases b with
    | none =>
      rw [show scanNG ("<D:href".data) ("</D:href>".data) false (renderInner none) = none from
        rfl]
      rw [ih hcl3 hdec3, List.filterMap_cons]
    | some h =>
      have hch : cleanVal h = true := hcl h (List.mem_cons_self _ _)
      rw [scan_href_inner h hch]
      dsimp only
      obtain ⟨d, hd⟩ := Option.isSome_iff_exists.mp (hdec h (List.mem_cons_self _ _))
      rw [hd]
      dsimp only
      rw [scan_absent_inner ("<D:getcontenttype".data) ("</D:getcontenttype>".data) false
        (some h) rfl (by decide) (by decide) (fun h2 hh2 => by cases hh2; exact hch)]
      rw [scan_absent_inner ("<D:getlastmodified".data) ("</D:getlastmodified>".data) false
        (some h) rfl (by decide) (by decide) (fun h2 hh2 => by cases hh2; exact hch)]
      rw [scan_absent_inner ("<D:getcontentlength".data) ("</D:getcontentlength>".data) false
        (some h) rfl (by decide) (by decide) (fun h2 hh2 => by cases hh2; exact hch)]
      rw [scan_absent_inner ("<D:resourcetype".data) ("</D:resourcetype>".data) false
        (some h) rfl (by decide) (by decide) (fun h2 hh2 => by cases hh2; exact hch)]
      rw [ih hcl3 hdec3, List.filterMap_cons]
      dsimp only
      rw [hd]
      rfl

theorem evtRecsOf_render (bs : List (Option (List Char)))
    (hcl : ∀ h, some h ∈ bs → cleanVal h = true) :
    evtRecsOf (bs.map renderInner) = .ok [] := by
  induction bs with
  | nil => rfl
  | cons b bs3 ih =>
    have hcl3 : ∀ h, some h ∈ bs3 → cleanVal h = true :=
      fun h hh => hcl h (List.mem_cons_of_mem _ hh)
    have hb : ∀ h2, b = some h2 → cleanVal h2 = true := by
      intro h2 hh2
      subst hh2
      exact hcl h2 (List.mem_cons_self _ _)
    rw [List.map_cons, evtRecsOf]
    rw [scan_absent_inner ("<C:calendar-data".data) ("</C:calendar-data>".data) true
      b rfl (by decide) (by decide) hb]
    cases b with
    | none =>
      rw [show scanNG ("<D:href".data) ("</D:href>".data) false (renderInner none) = none from
        rfl]
      exact ih hcl3
    | some h =>
      rw [scan_href_inner h (hcl h (List.mem_cons_self _ _))]
      exact ih hcl3

end Dav

/-- C4 counterexample: on a well-formed response block whose href text is
`%`, `decodeURIComponent` throws (modelled by `Except.error`), so the
extractor does not return a record list for every input string. -/
theorem c4_counterexample :
    Dav.parseCalendarsResponseM ("<D:response><D:href>%</D:href></D:response>".data) =
      .error () := by decide

/-- C4 amended: for every multi-status document built of response blocks
whose href texts are free of `<` and line terminators and percent-decode
successfully, the calendars extractor returns (without throwing) one record
per href-bearing block, with the href percent-decoded and the absent
optional fields (displayName, description) equal to `none`; a block without
an href yields no record. -/
theorem c4_amended (bs : List (Option (List Char)))
    (hcl : ∀ h, some h ∈ bs → Dav.cleanVal h = true)
    (hdec : ∀ h, some h ∈ bs → (Dav.decodeURIComponentM h).isSome = true) :
    Dav.parseCalendarsResponseM (Dav.renderDoc bs) = .ok (bs.filterMap (fun b =>
      match b with
      | none => none
      | some h => (Dav.decodeURIComponentM h).map (fun d =>
          { href := d, displayName := none, description := none }))) := by
  unfold Dav.parseCalendarsResponseM
  rw [Dav.responseBlocks_render bs hcl]
  exact Dav.calRecsOf_render bs hcl hdec

/-- Witness for C4 amended: a two-block document, one href-bearing block
with a percent-encoded href and one block without an href. -/
theorem c4_amended_witness :
    Dav.parseCalendarsResponseM (Dav.renderDoc [some ("/cal/a%20b.ics".data), none]) =
      .ok [{ href := "/cal/a b.ics".data, displayName := none, description := none }] := by
  rw [c4_amended _ (by intro h hh; simp at hh; subst hh; decide)
    (by intro h hh; simp at hh; subst hh; decide)]
  decide

/-- C5 counterexample: a document with exactly one response block that does
contain an href yields zero records from the events extractor (which also
requires a `calendar-data` element), not one record. -/
theorem c5_counterexample :
    Dav.responseBlocks ("<D:response><D:href>/a</D:href></D:response>".data) =
      ["<D:href>/a</D:href>".data] ∧
    (Dav.scanNG ("<D:href".data) ("</D:href>".data) false
      ("<D:href>/a</D:href>".data)).isSome = true ∧
    Dav.parseEventsResponseM ("<D:response><D:href>/a</D:href></D:response>".data) =
      .ok [] := by
  refine ⟨?_, ?_, ?_⟩ <;> decide

/-- C5 amended: on a multi-status document of N response blocks (hrefs
clean and decodable), the propfind extractor yields exactly one record per
href-bearing block, in document order with no sorting or deduplication, and
a block without an href contributes zero records; when all N blocks carry
an href the output length is exactly N. The events extractor additionally
requires a `calendar-data` element in the block, so href-only blocks
contribute zero records there. -/
theorem c5_amended (bs : List (Option (List Char)))
    (hcl : ∀ h, some h ∈ bs → Dav.cleanVal h = true)
    (hdec : ∀ h, some h ∈ bs → (Dav.decodeURIComponentM h).isSome = true) :
    Dav.parsePropfindResponseM (Dav.renderDoc bs) = .ok (bs.filterMap (fun b =>
      match b with
      | none => none
      | some h => (Dav.decodeURIComponentM h).map (fun d =>
          { href := d, contentType := none, lastModified := none, contentLength := none
            isCollection := false }))) ∧
    Dav.parseEventsResponseM (Dav.renderDoc bs) = .ok [] ∧
    (bs.all Option.isSome = true → ∃ rs,
      Dav.parsePropfindResponseM (Dav.renderDoc bs) = .ok rs ∧ rs.length = bs.length) := by
  have h1 : Dav.parsePropfindResponseM (Dav.renderDoc bs) = .ok (bs.filterMap (fun b =>
      match b with
      | none => none
      | some h => (Dav.decodeURIComponentM h).map (fun d =>
          { href := d, contentType := none, lastModified := none, contentLength := none
            isCollection := false }))) := by
    unfold Dav.parsePropfindResponseM
    rw [Dav.responseBlocks_render bs hcl]
    exact Dav.propRecsOf_render bs hcl hdec
  refine ⟨h1, ?_, ?_⟩
  · unfold Dav.parseEventsResponseM
    rw [Dav.responseBlocks_render bs hcl]
    exact Dav.evtRecsOf_render bs hcl
  · intro hall
    refine ⟨_, h1, ?_⟩
    clear h1
    induction bs with
    | nil => rfl
    | cons b bs3 ih =>
      rw [List.all_cons, Bool.and_eq_true] at hall
      obtain ⟨h, rfl⟩ := Option.isSome_iff_exists.mp hall.1
      rw [List.filterMap_cons]
      dsimp only
      obtain ⟨d, hd⟩ := Option.isSome_iff_exists.mp (hdec h (List.mem_cons_self _ _))
      rw [hd]
      rw [show (Option.map (fun d => (⟨d, none, none, none, false⟩ : Dav.PropRec)) (some d)) =
        some ⟨d, none, none, none, false⟩ from rfl]
      rw [List.length_cons, List.length_cons]
      rw [ih (fun h2 hh2 => hcl h2 (List.mem_cons_of_mem _ hh2))
        (fun h2 hh2 => hdec h2 (List.mem_cons_of_mem _ hh2)) hall.2]

/-- Witness for C5 amended: a three-block document with two href-bearing
blocks around one block without an href. -/
theorem c5_amended_witness :
    Dav.parsePropfindResponseM
        (Dav.renderDoc [some ("/f/a.txt".data), none, some ("/f/b%20c.txt".data)]) =
      .ok [{ href := "/f/a.txt".data, contentType := none, lastModified := none,
             contentLength := none, isCollection := false },
           { href := "/f/b c.txt".data, contentType := none, lastModified := none,
             contentLength := none, isCollection := false }] := by
  rw [(c5_amended [some ("/f/a.txt".data), none, some ("/f/b%20c.txt".data)]
    (by intro h hh; simp at hh; rcases hh with rfl | rfl <;> decide)
    (by intro h hh; simp at hh; rcases hh with rfl | rfl <;> decide)).1]
  decide

namespace Dav

theorem hasSub_of_isPre (n s : List Char) (h : isPre n s = true) : hasSub n s = true := by
  cases s with
  | nil => exact h
  | cons c r =>
    rw [hasSub]
    simp [h]

theorem hasSub_append (n a b : List Char) : hasSub n (a ++ n ++ b) = true := by
  induction a with
  | nil => exact hasSub_of_isPre _ _ (by rw [List.nil_append]; exact isPre_self_append n b)
  | cons c a2 ih =>
    rw [List.cons_append, List.cons_append, hasSub, ih]
    simp

end Dav

/-- C10: the `mkcol` case of `WebDav.execute` reports success exactly for
HTTP status 201, while the upload, delete, move and copy cases report
success for any status in 200..299. -/
theorem c10_success_statuses (s : Nat) :
    ((WebDav.caseResultJson .mkcol s).success = true ↔ s = 201) ∧
    ((WebDav.caseResultJson .put s).success = true ↔ (200 ≤ s ∧ s < 300)) ∧
    ((WebDav.caseResultJson .del s).success = true ↔ (200 ≤ s ∧ s < 300)) ∧
    ((WebDav.caseResultJson .move s).success = true ↔ (200 ≤ s ∧ s < 300)) ∧
    ((WebDav.caseResultJson .copy s).success = true ↔ (200 ≤ s ∧ s < 300)) := by
  refine ⟨?_, ?_, ?_, ?_, ?_⟩ <;> simp [WebDav.caseResultJson]

namespace Dav

theorem hasSub_parts (s n a b : List Char) (h : s = a ++ (n ++ b)) : hasSub n s = true := by
  rw [h, ← List.append_assoc]
  exact hasSub_append n a b

end Dav

/-- C8 counterexample: an error whose transport code is ENOTFOUND but whose
message contains `Invalid URL` is handled by the first (message-based)
rule, so the result does not contain `Host not found`. -/
theorem c8_counterexample :
    Dav.hasSub ("Host not found".data)
      ((WebDav.toFriendlyError "download" "file" "/a"
        ⟨"Invalid URL", some "ENOTFOUND", none, none, none, none, none⟩).data) = false := by
  decide

/-- C8 amended: for every error whose transport code is ENOTFOUND and whose
message does not contain `Invalid URL` (case-insensitively), the translator
returns a message containing `Host not found` together with the operation
label, the resource label and the attempted URL; the rules are applied in
priority order with the message test first, so an ENOTFOUND error whose
message contains `Invalid URL` gets the invalid-URL guidance instead. -/
theorem c8_amended (op res u : String) (e : WebDav.ErrShape)
    (hcode : e.code = some "ENOTFOUND")
    (hmsg : Dav.containsCI e.message "Invalid URL" = false) :
    Dav.hasSub ("Host not found".data) ((WebDav.toFriendlyError op res u e).data) = true ∧
    Dav.hasSub op.data ((WebDav.toFriendlyError op res u e).data) = true ∧
    Dav.hasSub res.data ((WebDav.toFriendlyError op res u e).data) = true ∧
    Dav.hasSub u.data ((WebDav.toFriendlyError op res u e).data) = true := by
  have hres : WebDav.toFriendlyError op res u e =
      "Host not found for " ++ ("WebDAV " ++ op ++ " on " ++ res ++ ": \"" ++ u ++ "\"") ++
        ". Check the server hostname in credentials." := by
    unfold WebDav.toFriendlyError
    dsimp only
    rw [hmsg, hcode]
    simp
  rw [hres]
  refine ⟨?_, ?_, ?_, ?_⟩
  · apply Dav.hasSub_parts _ _ ([] : List Char)
      (" for ".data ++ ("WebDAV ".data ++ op.data ++ " on ".data ++ res.data ++ ": \"".data ++
        u.data ++ "\"".data) ++ ". Check the server hostname in credentials.".data)
    simp [String.data_append, List.append_assoc]
  · apply Dav.hasSub_parts _ _ ("Host not found for ".data ++ "WebDAV ".data)
      (" on ".data ++ res.data ++ ": \"".data ++ u.data ++ "\"".data ++
        ". Check the server hostname in credentials.".data)
    simp [String.data_append, List.append_assoc]
  · apply Dav.hasSub_parts _ _
      ("Host not found for ".data ++ "WebDAV ".data ++ op.data ++ " on ".data)
      (": \"".data ++ u.data ++ "\"".data ++ ". Check the server hostname in credentials.".data)
    simp [String.data_append, List.append_assoc]
  · apply Dav.hasSub_parts _ _
      ("Host not found for ".data ++ "WebDAV ".data ++ op.data ++ " on ".data ++ res.data ++
        ": \"".data)
      ("\"".data ++ ". Check the server hostname in credentials.".data)
    simp [String.data_append, List.append_assoc]

/-- Witness for C8 amended at a concrete ENOTFOUND error. -/
theorem c8_amended_witness :
    Dav.hasSub ("Host not found".data)
      ((WebDav.toFriendlyError "download" "file" "/a"
        ⟨"getaddrinfo ENOTFOUND host", some "ENOTFOUND", none, none, none, none, none⟩).data) =
      true ∧
    Dav.hasSub ("download".data)
      ((WebDav.toFriendlyError "download" "file" "/a"
        ⟨"getaddrinfo ENOTFOUND host", some "ENOTFOUND", none, none, none, none, none⟩).data) =
      true ∧
    Dav.hasSub ("file".data)
      ((WebDav.toFriendlyError "download" "file" "/a"
        ⟨"getaddrinfo ENOTFOUND host", some "ENOTFOUND", none, none, none, none, none⟩).data) =
      true ∧
    Dav.hasSub ("/a".data)
      ((WebDav.toFriendlyError "download" "file" "/a"
        ⟨"getaddrinfo ENOTFOUND host", some "ENOTFOUND", none, none, none, none, none⟩).data) =
      true :=
  c8_amended "download" "file" "/a"
    ⟨"getaddrinfo ENOTFOUND host", some "ENOTFOUND", none, none, none, none, none⟩
    rfl (by decide)

namespace Dav

theorem normalizeWebL_ok (p : List Char) (hurl : isUrlPfx p = false) :
    ∃ q, normalizeWebL p = .ok q := by
  unfold normalizeWebL
  by_cases h0 : p = [] ∨ p = ['/']
  · rw [if_pos h0]
    exact ⟨_, rfl⟩
  · rw [if_neg h0, if_neg (by simp [hurl])]
    exact ⟨_, rfl⟩

end Dav

namespace WebDav

theorem composeMoveCopy_cross_origin (m baseRoot path dest : String) (ow : Bool)
    (d b : Dav.DavUrl)
    (hurl : Dav.isUrlPfx dest.data = true)
    (hd : Dav.parseUrlM dest.data = some d)
    (hb : Dav.parseUrlM baseRoot.data = some b)
    (hne : Dav.origin d ≠ Dav.origin b) :
    composeMoveCopy m baseRoot path dest ow =
      .error "Destination must be on the same server as the Base URL" := by
  unfold composeMoveCopy
  dsimp only
  rw [if_pos hurl, hd, hb]
  dsimp only
  rw [if_pos hne]

theorem composeMoveCopy_same_origin (m baseRoot path dest : String) (ow : Bool)
    (d b : Dav.DavUrl)
    (hurl : Dav.isUrlPfx dest.data = true)
    (hd : Dav.parseUrlM dest.data = some d)
    (hb : Dav.parseUrlM baseRoot.data = some b)
    (heq : Dav.origin d = Dav.origin b)
    (hpath : Dav.isUrlPfx path.data = false) :
    ∃ req, composeMoveCopy m baseRoot path dest ow = .ok req ∧
      req.method = m ∧
      req.destination = (⟨Dav.urlToString d⟩ : String) ∧
      req.overwrite = (if ow then "T" else "F") := by
  unfold composeMoveCopy
  dsimp only
  rw [if_pos hurl, hd, hb]
  dsimp only
  rw [if_neg (by simp [heq])]
  obtain ⟨np, hnp⟩ := Dav.normalizeWebL_ok path.data hpath
  rw [hnp]
  dsimp only
  have hnp2 : Dav.isUrlPfx np = false := by
    unfold Dav.normalizeWebL at hnp
    by_cases h0 : path.data = [] ∨ path.data = ['/']
    · rw [if_pos h0] at hnp
      cases hnp
      decide
    · rw [if_neg h0, if_neg (by simp [hpath])] at hnp
      cases hnp
      rw [show Dav.normalizeCore path.data =
        '/' :: Dav.joinSlash ((Dav.splitSlash (Dav.dropSlash path.data)).map Dav.encSeg) from
        rfl]
      exact Dav.isUrlPfx_slash _
  obtain ⟨np2, hnp2e⟩ := Dav.normalizeWebL_ok np hnp2
  rw [hnp2e]
  dsimp only
  exact ⟨_, rfl, rfl, rfl, rfl⟩

theorem composeMoveCopy_relative (m baseRoot path dest : String) (ow : Bool)
    (hurl : Dav.isUrlPfx dest.data = false)
    (hpath : Dav.isUrlPfx path.data = false) :
    ∃ req nd, Dav.normalizeWebL dest.data = .ok nd ∧
      composeMoveCopy m baseRoot path dest ow = .ok req ∧
      req.method = m ∧
      req.destination = (⟨baseRoot.data ++ nd⟩ : String) ∧
      req.overwrite = (if ow then "T" else "F") := by
  unfold composeMoveCopy
  dsimp only
  rw [if_neg (by simp [hurl])]
  obtain ⟨nd, hnd⟩ := Dav.normalizeWebL_ok dest.data hurl
  rw [hnd]
  dsimp only
  obtain ⟨np, hnp⟩ := Dav.normalizeWebL_ok path.data hpath
  rw [hnp]
  dsimp only
  have hnp2 : Dav.isUrlPfx np = false := by
    unfold Dav.normalizeWebL at hnp
    by_cases h0 : path.data = [] ∨ path.data = ['/']
    · rw [if_pos h0] at hnp
      cases hnp
      decide
    · rw [if_neg h0, if_neg (by simp [hpath])] at hnp
      cases hnp
      rw [show Dav.normalizeCore path.data =
        '/' :: Dav.joinSlash ((Dav.splitSlash (Dav.dropSlash path.data)).map Dav.encSeg) from
        rfl]
      exact Dav.isUrlPfx_slash _
  obtain ⟨np2, hnp2e⟩ := Dav.normalizeWebL_ok np hnp2
  rw [hnp2e]
  dsimp only
  exact ⟨_, nd, rfl, rfl, rfl, rfl, rfl⟩

end WebDav

/-- C7: for MOVE and COPY, an absolute destination whose origin differs
from the base URL's origin makes the case fail with the cross-origin error
before any request value is composed (so nothing is sent); a same-origin
absolute destination is serialized into the `Destination` header; a
relative destination becomes `baseRoot + normalizePath(destination)`; and
the `Overwrite` header is `T` when the overwrite flag is set and `F`
otherwise. -/
theorem c7_move_copy_destination (baseRoot path dest : String) (ow : Bool) (d b : Dav.DavUrl)
    (hpath : Dav.isUrlPfx path.data = false) :
    (Dav.isUrlPfx dest.data = true → Dav.parseUrlM dest.data = some d →
      Dav.parseUrlM baseRoot.data = some b → Dav.origin d ≠ Dav.origin b →
      WebDav.composeMove baseRoot path dest ow =
          .error "Destination must be on the same server as the Base URL" ∧
        WebDav.composeCopy baseRoot path dest ow =
          .error "Destination must be on the same server as the Base URL") ∧
    (Dav.isUrlPfx dest.data = true → Dav.parseUrlM dest.data = some d →
      Dav.parseUrlM baseRoot.data = some b → Dav.origin d = Dav.origin b →
      (∃ req, WebDav.composeMove baseRoot path dest ow = .ok req ∧
        req.destination = (⟨Dav.urlToString d⟩ : String) ∧
        req.overwrite = (if ow then "T" else "F")) ∧
      (∃ req, WebDav.composeCopy baseRoot path dest ow = .ok req ∧
        req.destination = (⟨Dav.urlToString d⟩ : String) ∧
        req.overwrite = (if ow then "T" else "F"))) ∧
    (Dav.isUrlPfx dest.data = false →
      (∃ req nd, Dav.normalizeWebL dest.data = .ok nd ∧
        WebDav.composeMove baseRoot path dest ow = .ok req ∧
        req.destination = (⟨baseRoot.data ++ nd⟩ : String) ∧
        req.overwrite = (if ow then "T" else "F")) ∧
      (∃ req nd, Dav.normalizeWebL dest.data = .ok nd ∧
        WebDav.composeCopy baseRoot path dest ow = .ok req ∧
        req.destination = (⟨baseRoot.data ++ nd⟩ : String) ∧
        req.overwrite = (if ow then "T" else "F"))) := by
  refine ⟨?_, ?_, ?_⟩
  · intro hurl hd hb hne
    exact ⟨WebDav.composeMoveCopy_cross_origin _ _ _ _ _ d b hurl hd hb hne,
      WebDav.composeMoveCopy_cross_origin _ _ _ _ _ d b hurl hd hb hne⟩
  · intro hurl hd hb heq
    obtain ⟨r1, hr1, _, hd1, ho1⟩ :=
      WebDav.composeMoveCopy_same_origin "MOVE" baseRoot path dest ow d b hurl hd hb heq hpath
    obtain ⟨r2, hr2, _, hd2, ho2⟩ :=
      WebDav.composeMoveCopy_same_origin "COPY" baseRoot path dest ow d b hurl hd hb heq hpath
    exact ⟨⟨r1, hr1, hd1, ho1⟩, ⟨r2, hr2, hd2, ho2⟩⟩
  · intro hurl
    obtain ⟨r1, nd1, hn1, hr1, _, hd1, ho1⟩ :=
      WebDav.composeMoveCopy_relative "MOVE" baseRoot path dest ow hurl hpath
    obtain ⟨r2, nd2, hn2, hr2, _, hd2, ho2⟩ :=
      WebDav.composeMoveCopy_relative "COPY" baseRoot path dest ow hurl hpath
    exact ⟨⟨r1, nd1, hn1, hr1, hd1, ho1⟩, ⟨r2, nd2, hn2, hr2, hd2, ho2⟩⟩

/-- Witness for C7 at concrete destinations: a cross-origin absolute
destination errors, a same-origin one is used as the header, a relative
one is prefixed with the base root. -/
theorem c7_move_copy_destination_witness :
    WebDav.composeMove "https://example.com" "/a b" "https://other.example/x" true =
      .error "Destination must be on the same server as the Base URL" ∧
    (∃ req, WebDav.composeMove "https://example.com" "/a b" "https://example.com/y" false =
      .ok req ∧
      req.destination =
        (⟨Dav.urlToString ⟨"https".data, "example.com".data, none, "/y".data⟩⟩ : String) ∧
      req.overwrite = (if false then "T" else "F")) ∧
    (∃ req nd, Dav.normalizeWebL ("/rel p".data) = .ok nd ∧
      WebDav.composeMove "https://example.com" "/a b" "/rel p" true = .ok req ∧
      req.destination = (⟨"https://example.com".data ++ nd⟩ : String) ∧
      req.overwrite = (if true then "T" else "F")) := by
  refine ⟨?_, ?_, ?_⟩
  · exact ((c7_move_copy_destination "https://example.com" "/a b" "https://other.example/x"
      true ⟨"https".data, "other.example".data, none, "/x".data⟩
      ⟨"https".data, "example.com".data, none, []⟩ (by decide)).1
      (by decide) (by decide) (by decide) (by decide)).1
  · exact (((c7_move_copy_destination "https://example.com" "/a b" "https://example.com/y"
      false ⟨"https".data, "example.com".data, none, "/y".data⟩
      ⟨"https".data, "example.com".data, none, []⟩ (by decide)).2.1
      (by decide) (by decide) (by decide) (by decide)).1)
  · exact (((c7_move_copy_destination "https://example.com" "/a b" "/rel p"
      true ⟨"https".data, "example.com".data, none, []⟩
      ⟨"https".data, "example.com".data, none, []⟩ (by decide)).2.2
      (by decide)).1)

namespace Dav

theorem runItems_cof_spec {α ε : Type} (step : Nat → α → Except ε α) (errRec : Nat → ε → α) :
    ∀ (items : List α) (i : Nat), ∃ out, (runItems true step errRec i items).2 = .ok out ∧
      out.length = items.length ∧
      (∀ j a, items.get? j = some a → out.get? j = some (match step (i + j) a with
        | .ok r => r
        | .error e => errRec (i + j) e)) := by
  intro items
  induction items with
  | nil =>
    intro i
    refine ⟨[], rfl, rfl, ?_⟩
    intro j a h
    simp at h
  | cons x rest ih =>
    intro i
    obtain ⟨out, hout, hlen, hget⟩ := ih (i + 1)
    rcases hrec : runItems true step errRec (i + 1) rest with ⟨idxs, res⟩
    rw [hrec] at hout
    simp only at hout
    cases hs : step i x with
    | ok r =>
      refine ⟨r :: out, ?_, by simp [hlen], ?_⟩
      · rw [runItems, hs, hrec]
        simp [hout, Except.map]
      · intro j a hj
        cases j with
        | zero =>
          simp at hj
          subst hj
          simp [hs]
        | succ k =>
          simp only [List.get?_cons_succ] at hj ⊢
          have := hget k a hj
          rw [show i + 1 + k = i + (k + 1) from by omega] at this
          exact this
    | error e =>
      refine ⟨errRec i e :: out, ?_, by simp [hlen], ?_⟩
      · rw [runItems, hs, hrec]
        simp [hout, Except.map]
      · intro j a hj
        cases j with
        | zero =>
          simp at hj
          subst hj
          simp [hs]
        | succ k =>
          simp only [List.get?_cons_succ] at hj ⊢
          have := hget k a hj
          rw [show i + 1 + k = i + (k + 1) from by omega] at this
          exact this

end Dav

/-- C1 amended: with continue-on-fail enabled the WebDav batch loop
produces exactly one output record per input item, in input order: the
transformed item when the step succeeds and the error record when it
fails, so with three items of which one fails both successful results are
present and the output length is three. The CalDav/CardDav loop instead
pushes the error record onto the iterated input array itself: its run over
three items with exactly one failing (every other processing attempt
succeeding) touches indices 0..3 and ends with four records, the appended
error record having been processed as a fourth item. -/
theorem c1_amended {α ε : Type} (step : Nat → α → Except ε α) (errRec : Nat → ε → α)
    (items : List α) :
    (∃ out, (Dav.runItems true step errRec 0 items).2 = .ok out ∧
      out.length = items.length ∧
      (∀ j a, items.get? j = some a → out.get? j = some (match step j a with
        | .ok r => r
        | .error e => errRec j e))) ∧
    Dav.davPushLoop true (fun i a => if i == 1 then Except.error () else Except.ok (a + 1))
      (fun _ _ => (99 : Nat)) 10 [10, 20, 30] 0 =
      ([0, 1, 2, 3], some (.ok [11, 20, 31, 100])) := by
  constructor
  · obtain ⟨out, h1, h2, h3⟩ := Dav.runItems_cof_spec step errRec items 0
    refine ⟨out, h1, h2, ?_⟩
    intro j a hj
    have := h3 j a hj
    rw [show (0 : Nat) + j = j from by omega] at this
    exact this
  · decide

/-- Witness for C1 amended: the WebDav loop over three items with the
middle one failing yields the two successful transforms around the error
record. -/
theorem c1_amended_witness :
    (Dav.runItems true (fun i a => if i == 1 then Except.error () else Except.ok (a + 1))
      (fun _ _ => (99 : Nat)) 0 [10, 20, 30]).2 = Except.ok [11, 99, 31] := by
  obtain ⟨out, h1, h2, h3⟩ := (c1_amended
    (fun i a => if i == 1 then Except.error () else Except.ok (a + 1))
    (fun _ _ => (99 : Nat)) [10, 20, 30]).1
  have e0 := h3 0 10 (by decide)
  have e1 := h3 1 20 (by decide)
  have e2 := h3 2 30 (by decide)
  have hout : out = [11, 99, 31] := by
    cases out with
    | nil => simp at h2
    | cons a t =>
      cases t with
      | nil => simp at h2
      | cons b t2 =>
        cases t2 with
        | nil => simp at h2
        | cons c t3 =>
          cases t3 with
          | cons d t4 => simp at h2
          | nil =>
            simp at e0 e1 e2
            rw [e0, e1, e2]
  rw [hout] at h1
  exact h1

/-- C1 counterexample: the CalDav batch loop with continue-on-fail over
three items of which exactly one fails (and every other processing attempt
succeeds) returns four records, not three: the failed item's original
record stays in place and the appended error record is iterated and
processed as well. -/
theorem c1_counterexample :
    Dav.davPushLoop true (fun i a => if i == 1 then Except.error () else Except.ok (a + 1))
      (fun _ _ => (99 : Nat)) 10 [10, 20, 30] 0 =
      ([0, 1, 2, 3], some (.ok [11, 20, 31, 100])) ∧
    (4 : Nat) ≠ 3 := by
  refine ⟨by decide, by decide⟩

/-- C3: in each node family the base URL is validated once, before any
item is processed: when validation fails the run's trace is the single
validate event with the aborting credential error and no item event; when
it succeeds the trace is the validate event followed only by item events.
Validation succeeds exactly when the trimmed credential is non-empty and
matches `^https?://` case-insensitively. -/
theorem c3_baseurl_validation {α ε : Type} (cred : Option String) (fuel : Nat) (cof : Bool)
    (step : Nat → α → Except ε α) (errRec : Nat → ε → α) (items : List α) :
    (∀ m, Dav.validateBaseUrl cred = .error m →
      WebDav.executeShell cred cof step errRec items =
        ([Dav.Ev.validate], .error (.cred m)) ∧
      CalDav.executeShell fuel cred cof step errRec items =
        ([Dav.Ev.validate], some (.error (.cred m))) ∧
      CardDav.executeShell fuel cred cof step errRec items =
        ([Dav.Ev.validate], some (.error (.cred m)))) ∧
    (∀ t, Dav.validateBaseUrl cred = .ok t →
      (∃ idxs : List Nat, ∃ res, WebDav.executeShell cred cof step errRec items =
        (Dav.Ev.validate :: idxs.map Dav.Ev.item, res) ∧
        Dav.Ev.validate ∉ idxs.map Dav.Ev.item) ∧
      (∃ idxs : List Nat, ∃ res, CalDav.executeShell fuel cred cof step errRec items =
        (Dav.Ev.validate :: idxs.map Dav.Ev.item, res) ∧
        Dav.Ev.validate ∉ idxs.map Dav.Ev.item) ∧
      (∃ idxs : List Nat, ∃ res, CardDav.executeShell fuel cred cof step errRec items =
        (Dav.Ev.validate :: idxs.map Dav.Ev.item, res) ∧
        Dav.Ev.validate ∉ idxs.map Dav.Ev.item)) ∧
    (∀ s, Dav.validateBaseUrl (some s) =
      (if Dav.trimWs s.data = [] ∨ ¬ Dav.isUrlPfx (Dav.trimWs s.data) = true
        then .error Dav.invalidBaseUrlMsg else .ok ⟨Dav.trimWs s.data⟩)) := by
  refine ⟨?_, ?_, ?_⟩
  · intro m hm
    refine ⟨?_, ?_, ?_⟩
    · unfold WebDav.executeShell
      rw [hm]
    · unfold CalDav.executeShell
      rw [hm]
    · unfold CardDav.executeShell CalDav.executeShell
      rw [hm]
  · intro t ht
    have hnotin : ∀ idxs : List Nat, Dav.Ev.validate ∉ idxs.map Dav.Ev.item := by
      intro idxs hmem
      rw [List.mem_map] at hmem
      obtain ⟨i, _, hi⟩ := hmem
      cases hi
    refine ⟨?_, ?_, ?_⟩
    · refine ⟨(Dav.runItems cof step errRec 0 items).1,
        (match (Dav.runItems cof step errRec 0 items).2 with
         | .ok l => .ok l
         | .error (i, e) => .error (.item i e)), ?_, hnotin _⟩
      unfold WebDav.executeShell
      rw [ht]
    · refine ⟨(Dav.davPushLoop cof step errRec fuel items 0).1,
        ((Dav.davPushLoop cof step errRec fuel items 0).2).map (fun r =>
          match r with
          | .ok l => .ok l
          | .error (i, e) => .error (.item i e)), ?_, hnotin _⟩
      unfold CalDav.executeShell
      rw [ht]
    · refine ⟨(Dav.davPushLoop cof step errRec fuel items 0).1,
        ((Dav.davPushLoop cof step errRec fuel items 0).2).map (fun r =>
          match r with
          | .ok l => .ok l
          | .error (i, e) => .error (.item i e)), ?_, hnotin _⟩
      unfold CardDav.executeShell CalDav.executeShell
      rw [ht]
  · intro s
    rfl

/-- Witness for C3: an invalid credential aborts the WebDav run with the
single validate event, and a valid one yields a validate-then-items trace. -/
theorem c3_baseurl_validation_witness :
    WebDav.executeShell (some "notaurl") true (fun _ a => (Except.ok a : Except Unit Nat))
      (fun _ _ => (0 : Nat)) ([1, 2] : List Nat) =
      ([Dav.Ev.validate], .error (.cred Dav.invalidBaseUrlMsg)) ∧
    (∃ idxs : List Nat, ∃ res : Except (Dav.ShellErr Unit) (List Nat),
      WebDav.executeShell (some "https://example.com") true
        (fun _ a => (Except.ok a : Except Unit Nat))
        (fun _ _ => (0 : Nat)) ([1, 2] : List Nat) =
        (Dav.Ev.validate :: idxs.map Dav.Ev.item, res) ∧
      Dav.Ev.validate ∉ idxs.map Dav.Ev.item) := by
  constructor
  · exact ((c3_baseurl_validation (some "notaurl") 0 true
      (fun _ a => (Except.ok a : Except Unit Nat))
      (fun _ _ => (0 : Nat)) ([1, 2] : List Nat)).1 Dav.invalidBaseUrlMsg (by decide)).1
  · exact ((c3_baseurl_validation (some "https://example.com") 0 true
      (fun _ a => (Except.ok a : Except Unit Nat))
      (fun _ _ => (0 : Nat)) ([1, 2] : List Nat)).2.1 "https://example.com" (by decide)).1
